import Mathlib

/-!
Shallow embedding of `src/gsdmm/mgp.py` (class `MovieGroupProcess`): the GSDMM
collapsed Gibbs sampler for short-text clustering.  Python dictionaries are
modelled as insertion-ordered association lists, Python integers as `ℤ`/`ℕ`,
floating point numbers as `ℝ`, and the numpy multinomial draw as an oracle
stream of natural numbers `rs : ℕ → ℕ`: each call of `_sample p` realizes an
index below `len p` taken from the stream, and every theorem about the fit
loop is quantified over all oracle outcomes.
-/

namespace Gsdmm

/-- Tokens are the document words (Python `str`). -/
abbrev Token := String

/-- Insertion-ordered association list modelling a Python `dict` mapping a
token to an integer count (one `cluster_word_distribution[z]`). -/
abbrev WordDist := List (Token × ℤ)

/-- Python `d.get(word, 0)` (mgp.py line 241). -/
def getCount : WordDist → Token → ℤ
  | [], _ => 0
  | (k, v) :: rest, w => if k = w then v else getCount rest w

/-- Python `if word not in d: d[word] = 0` followed by `d[word] += 1`
(mgp.py lines 144-147 and 179-182): update in place if the key is present,
otherwise append a fresh entry with count 1. -/
def incWord : WordDist → Token → WordDist
  | [], w => [(w, 1)]
  | (k, v) :: rest, w =>
      if k = w then (k, v + 1) :: rest else (k, v) :: incWord rest w

/-- Python `d[word] -= 1` followed by `if d[word] == 0: del d[word]`
(mgp.py lines 160-165).  On an absent key the Python code would raise
`KeyError`; that situation is unreachable in `fit`, and the model leaves the
dictionary unchanged there. -/
def decWord : WordDist → Token → WordDist
  | [], _ => []
  | (k, v) :: rest, w =>
      if k = w then (if v - 1 = 0 then rest else (k, v - 1) :: rest)
      else (k, v) :: decWord rest w

/-- Python `sum(d.values())`. -/
def sumValues (d : WordDist) : ℤ := (d.map (fun kv => kv.2)).sum

/-- Number of occurrences of a token in a document (a document is a list of
tokens; multiplicity matters). -/
def countTok : List Token → Token → ℕ
  | [], _ => 0
  | x :: rest, w => (if x = w then 1 else 0) + countTok rest w

/-- The state of a `MovieGroupProcess` object.  `number_docs` and
`vocab_size` are `None` in Python until `fit` runs; the model uses `0` for
that stage (no verified claim touches the pre-fit value). -/
structure Model where
  K : ℕ
  alpha : ℝ
  beta : ℝ
  n_iters : ℕ
  number_docs : ℕ
  vocab_size : ℕ
  cluster_doc_count : List ℤ
  cluster_word_count : List ℤ
  cluster_word_distribution : List WordDist

/-- `MovieGroupProcess.__init__` (mgp.py lines 21-59): stores the
configuration unvalidated and zero-initializes the statistics. -/
def mkModel (K : ℕ) (alpha beta : ℝ) (n_iters : ℕ) : Model :=
  { K := K, alpha := alpha, beta := beta, n_iters := n_iters
    number_docs := 0, vocab_size := 0
    cluster_doc_count := List.replicate K 0
    cluster_word_count := List.replicate K 0
    cluster_word_distribution := List.replicate K [] }

/-- `MovieGroupProcess.from_data` (mgp.py lines 62-91): reconstitute a model
from previously fit statistics; `n_iters` is fixed at 30. -/
def fromData (K : ℕ) (alpha beta : ℝ) (D vocab_size : ℕ)
    (cluster_doc_count cluster_word_count : List ℤ)
    (cluster_word_distribution : List WordDist) : Model :=
  { K := K, alpha := alpha, beta := beta, n_iters := 30
    number_docs := D, vocab_size := vocab_size
    cluster_doc_count := cluster_doc_count
    cluster_word_count := cluster_word_count
    cluster_word_distribution := cluster_word_distribution }

/-- The word distribution of cluster `z`
(Python `self.cluster_word_distribution[z]`). -/
def distAt (m : Model) (z : ℕ) : WordDist :=
  m.cluster_word_distribution.getD z []

/-- Body of the `for label in range(K)` loop of `score` (mgp.py lines
236-244): the unnormalized weight `exp(lN1 - lD1 + lN2 - lD2)` of one
cluster, with the two inner loops rendered as left folds exactly as the
`lN2 +=` / `lD2 +=` accumulations run. -/
noncomputable def scoreWeight (m : Model) (doc : List Token) (label : ℕ) : ℝ :=
  let lD1 := Real.log ((m.number_docs : ℝ) - 1 + (m.K : ℝ) * m.alpha)
  let lN1 := Real.log (((m.cluster_doc_count.getD label 0 : ℤ) : ℝ) + m.alpha)
  let lN2 := doc.foldl
    (fun s w => s + Real.log (((getCount (distAt m label) w : ℤ) : ℝ) + m.beta)) 0
  let lD2 := (List.range' 1 doc.length).foldl
    (fun s (j : ℕ) => s + Real.log (((m.cluster_word_count.getD label 0 : ℤ) : ℝ) +
      (m.vocab_size : ℝ) * m.beta + (j : ℝ) - 1)) 0
  Real.exp (lN1 - lD1 + lN2 - lD2)

/-- The vector `p` of `score` before normalization (mgp.py lines 225-244). -/
noncomputable def scoreRaw (m : Model) (doc : List Token) : List ℝ :=
  (List.range m.K).map (scoreWeight m doc)

/-- `MovieGroupProcess.score` (mgp.py lines 200-249), including the
normalization guard `pnorm = pnorm if pnorm > 0 else 1`. -/
noncomputable def score (m : Model) (doc : List Token) : List ℝ :=
  let p := scoreRaw m doc
  let pnorm := p.sum
  let pnorm2 := if 0 < pnorm then pnorm else 1
  p.map (fun pp => pp / pnorm2)

/-- Fold implementing numpy `argmax` (mgp.py line 258): a scan keeping the
first index attaining the running maximum, updating only on a strictly
larger value. -/
noncomputable def argmaxAux : List ℝ → ℕ → ℕ → ℝ → ℕ
  | [], _, bi, _ => bi
  | x :: rest, i, bi, bv =>
      if bv < x then argmaxAux rest (i + 1) i x else argmaxAux rest (i + 1) bi bv

/-- numpy `argmax` over a list (first occurrence of the maximum). -/
noncomputable def argmaxList : List ℝ → ℕ
  | [] => 0
  | x :: rest => argmaxAux rest 1 0 x

/-- Python builtin `max` over a nonempty list of floats. -/
noncomputable def listMax : List ℝ → ℝ
  | [] => 0
  | x :: rest => rest.foldl (fun a b => max a b) x

/-- `MovieGroupProcess.choose_best_label` (mgp.py lines 251-258):
`(argmax(p), max(p))` for `p = score(doc)`.  The Python method only reads
the statistics; the embedding is a pure function of the model. -/
noncomputable def chooseBestLabel (m : Model) (doc : List Token) : ℕ × ℝ :=
  (argmaxList (score m doc), listMax (score m doc))

/-- Comparison realizing `sorted(items, key=lambda k: k[1], reverse=True)`
(mgp.py line 270): stable descending order on the count component. -/
def byCountDesc (a b : Token × ℤ) : Prop := b.2 ≤ a.2

instance : DecidableRel byCountDesc := fun a b => inferInstanceAs (Decidable (b.2 ≤ a.2))

instance : IsTotal (Token × ℤ) byCountDesc := ⟨fun a b => le_total b.2 a.2⟩

instance : IsTrans (Token × ℤ) byCountDesc := ⟨fun _ _ _ hab hbc => le_trans hbc hab⟩

/-- Comparison realizing `numpy.argsort` on `cluster_doc_count`
(ascending by value; numpy leaves the order of ties unspecified, and no
claim depends on it). -/
def byAsc (a b : ℕ × ℤ) : Prop := a.2 ≤ b.2

instance : DecidableRel byAsc := fun a b => inferInstanceAs (Decidable (a.2 ≤ b.2))

instance : IsTotal (ℕ × ℤ) byAsc := ⟨fun a b => le_total a.2 b.2⟩

instance : IsTrans (ℕ × ℤ) byAsc := ⟨fun _ _ _ hab hbc => le_trans hab hbc⟩

/-- Pair every position of a list with its value, starting at index `i`. -/
def enumIdx : List ℤ → ℕ → List (ℕ × ℤ)
  | [], _ => []
  | v :: rest, i => (i, v) :: enumIdx rest (i + 1)

/-- Python `doc_count.argsort()[-self.K:][::-1]` (mgp.py lines 264-265):
indices of `cluster_doc_count` sorted ascending by value, the last `K`
taken (`[-0:]` is the whole list), then reversed. -/
def topIndex (m : Model) : List ℕ :=
  let idxs := (List.insertionSort byAsc (enumIdx m.cluster_doc_count 0)).map (fun p => p.1)
  let sliced := if m.K = 0 then idxs else idxs.drop (idxs.length - m.K)
  sliced.reverse

/-- Python dict assignment `topic_words[cluster] = words`: overwrite in
place when the key is present, otherwise append. -/
def dictInsert : List (ℕ × String) → ℕ → String → List (ℕ × String)
  | [], k, v => [(k, v)]
  | (k2, v2) :: rest, k, v =>
      if k2 = k then (k2, v) :: rest else (k2, v2) :: dictInsert rest k v

/-- Lookup in the result dictionary of `get_top_words`. -/
def dictLookup : List (ℕ × String) → ℕ → Option String
  | [], _ => none
  | (k2, v2) :: rest, k => if k2 = k then some v2 else dictLookup rest k

/-- `MovieGroupProcess.get_top_words` (mgp.py lines 260-274). -/
def getTopWords (m : Model) (k_words : ℕ) (merge_token : String) : List (ℕ × String) :=
  (topIndex m).foldl
    (fun acc cluster =>
      let sort_dicts := (List.insertionSort byCountDesc (distAt m cluster)).take k_words
      dictInsert acc cluster
        (String.intercalate merge_token (sort_dicts.map (fun wc => wc.1))))
    []

/-- Oracle abstraction of `MovieGroupProcess._sample` (mgp.py lines 93-102):
numpy performs one multinomial trial over `len p` outcomes and the index of
the realized outcome is returned; the model takes the index from the oracle
value `r`, reduced below `len p`. -/
def sampleM (p : List ℝ) (r : ℕ) : ℕ := r % p.length

/-- Mutable state threaded through `fit`: the statistics on the model, the
per-document labels `d_z`, and the count of oracle draws consumed so far. -/
structure FitAcc where
  model : Model
  d_z : List ℕ
  ctr : ℕ

/-- Add one document's contribution to cluster `z` (mgp.py lines 141-147 and
176-182): `m_z[z] += 1`, `n_z[z] += len(doc)`, and each token's entry in
`n_z_w[z]` incremented (created at 0 first when absent). -/
def addDoc (m : Model) (z : ℕ) (doc : List Token) : Model :=
  { m with
    cluster_doc_count := m.cluster_doc_count.set z (m.cluster_doc_count.getD z 0 + 1)
    cluster_word_count :=
      m.cluster_word_count.set z (m.cluster_word_count.getD z 0 + (doc.length : ℤ))
    cluster_word_distribution :=
      m.cluster_word_distribution.set z (doc.foldl incWord (distAt m z)) }

/-- Remove one document's contribution from cluster `z` (mgp.py lines
157-165): `m_z[z] -= 1`, `n_z[z] -= len(doc)`, and each token's entry
decremented with deletion on reaching 0. -/
def removeDoc (m : Model) (z : ℕ) (doc : List Token) : Model :=
  { m with
    cluster_doc_count := m.cluster_doc_count.set z (m.cluster_doc_count.getD z 0 - 1)
    cluster_word_count :=
      m.cluster_word_count.set z (m.cluster_word_count.getD z 0 - (doc.length : ℤ))
    cluster_word_distribution :=
      m.cluster_word_distribution.set z (doc.foldl decWord (distAt m z)) }

/-- One document of the initialization pass (mgp.py lines 136-147): draw a
uniform cluster via `_sample([1.0/K]*K)`, record the label, add the
contribution. -/
noncomputable def initStep (K : ℕ) (rs : ℕ → ℕ) (acc : FitAcc) (doc : List Token) : FitAcc :=
  let z := sampleM (List.replicate K ((1 : ℝ) / (K : ℝ))) (rs acc.ctr)
  { model := addDoc acc.model z doc, d_z := acc.d_z ++ [z], ctr := acc.ctr + 1 }

/-- The initialization of `fit` (mgp.py lines 122-147): set `number_docs`
and `vocab_size`, then run the per-document initialization over the corpus.
The statistics are NOT reset: the pass adds on top of whatever the model
already holds. -/
noncomputable def initPass (rs : ℕ → ℕ) (m : Model) (docs : List (List Token))
    (vocab_size : ℕ) : FitAcc :=
  docs.foldl (initStep m.K rs)
    { model := { m with number_docs := docs.length, vocab_size := vocab_size }
      d_z := [], ctr := 0 }

/-- One per-document reassignment step of a sweep (mgp.py lines 152-182):
remove from the old cluster, rescore against the document-excluded
statistics, draw the new cluster, transfer, add.  The boolean reports
whether a transfer (`z_new != z_old`) happened. -/
noncomputable def reassignStep (rs : ℕ → ℕ) (acc : FitAcc) (i : ℕ) (doc : List Token) :
    FitAcc × Bool :=
  let z_old := acc.d_z.getD i 0
  let m1 := removeDoc acc.model z_old doc
  let p := score m1 doc
  let z_new := sampleM p (rs acc.ctr)
  (⟨addDoc m1 z_new doc, acc.d_z.set i z_new, acc.ctr + 1⟩, decide (z_new ≠ z_old))

/-- The `for i, doc in enumerate(docs)` loop of one sweep, accumulating
`total_transfers` (mgp.py lines 150-182). -/
noncomputable def sweepDocs (rs : ℕ → ℕ) : List (List Token) → ℕ → FitAcc × ℕ → FitAcc × ℕ
  | [], _, st => st
  | doc :: rest, i, st =>
      let s2 := reassignStep rs st.1 i doc
      sweepDocs rs rest (i + 1) (s2.1, st.2 + (if s2.2 then 1 else 0))

/-- One full sweep over the corpus starting with zero transfers. -/
noncomputable def sweepPass (rs : ℕ → ℕ) (docs : List (List Token)) (acc : FitAcc) :
    FitAcc × ℕ :=
  sweepDocs rs docs 0 (acc, 0)

/-- Python `sum(v > 0 for v in m_z)` (mgp.py line 184). -/
def countPositive (l : List ℤ) : ℕ := l.countP (fun v => decide (0 < v))

/-- The `for _iter in range(n_iters)` loop of `fit` (mgp.py lines 149-196):
arguments are the remaining iteration budget, the current 0-based sweep
index `_iter`, the `cluster_count` carried from before the sweep (initially
`K`), and the state.  Returns the final state and the number of sweeps that
actually executed; the loop breaks after a sweep exactly when
`total_transfers == 0 and cluster_count_new == cluster_count and _iter > 25`. -/
noncomputable def sweepLoop (rs : ℕ → ℕ) (docs : List (List Token)) :
    ℕ → ℕ → ℕ → FitAcc → FitAcc × ℕ
  | 0, _, _, acc => (acc, 0)
  | n + 1, t, cc, acc =>
      let res := sweepPass rs docs acc
      let ccNew := countPositive res.1.model.cluster_doc_count
      if res.2 = 0 ∧ ccNew = cc ∧ 25 < t then (res.1, 1)
      else
        let rest := sweepLoop rs docs n (t + 1) ccNew res.1
        (rest.1, rest.2 + 1)

/-- `MovieGroupProcess.fit` (mgp.py lines 104-198): initialization pass then
up to `n_iters` sweeps; returns the final model state and the per-document
label list `d_z`. -/
noncomputable def fit (rs : ℕ → ℕ) (m : Model) (docs : List (List Token))
    (vocab_size : ℕ) : Model × List ℕ :=
  let res := sweepLoop rs docs m.n_iters 0 m.K (initPass rs m docs vocab_size)
  (res.1.model, res.1.d_z)

/-- Number of sweeps `fit` executes. -/
noncomputable def fitSweeps (rs : ℕ → ℕ) (m : Model) (docs : List (List Token))
    (vocab_size : ℕ) : ℕ :=
  (sweepLoop rs docs m.n_iters 0 m.K (initPass rs m docs vocab_size)).2

/-- State of the break-free sweep trace: after the initialization pass and
`t` full sweeps.  (The break in `fit` only stops the loop, it never changes
the state, so the states reached inside `fit` are exactly the prefixes of
this trace.) -/
noncomputable def sweepState (rs : ℕ → ℕ) (m : Model) (docs : List (List Token))
    (V : ℕ) : ℕ → FitAcc
  | 0 => initPass rs m docs V
  | t + 1 => (sweepPass rs docs (sweepState rs m docs V t)).1

/-- `total_transfers` reported at the end of sweep `t`. -/
noncomputable def transfersAt (rs : ℕ → ℕ) (m : Model) (docs : List (List Token))
    (V : ℕ) (t : ℕ) : ℕ :=
  (sweepPass rs docs (sweepState rs m docs V t)).2

/-- The `cluster_count` value compared at the end of sweep `t`: `K` before
sweep 0, afterwards the populated-cluster count of the previous sweep
(mgp.py lines 132, 184, 196). -/
noncomputable def ccAt (rs : ℕ → ℕ) (m : Model) (docs : List (List Token))
    (V : ℕ) : ℕ → ℕ
  | 0 => m.K
  | t + 1 => countPositive (sweepState rs m docs V (t + 1)).model.cluster_doc_count

/-- The convergence condition checked at the end of sweep `t`
(mgp.py lines 189-193). -/
def breakCondAt (rs : ℕ → ℕ) (m : Model) (docs : List (List Token))
    (V : ℕ) (t : ℕ) : Prop :=
  transfersAt rs m docs V t = 0 ∧ ccAt rs m docs V (t + 1) = ccAt rs m docs V t ∧ 25 < t

/-- State after `t` full sweeps followed by the first `i` per-document
reassignment steps of the next sweep. -/
noncomputable def stepsState (rs : ℕ → ℕ) (m : Model) (docs : List (List Token))
    (V : ℕ) (t i : ℕ) : FitAcc :=
  (sweepDocs rs (docs.take i) 0 (sweepState rs m docs V t, 0)).1

/-- Per-cluster aggregate of a per-document quantity `f` over the documents
currently labelled `z`. -/
def aggF (f : List Token → ℤ) : List (List Token) → List ℕ → ℕ → ℤ
  | [], _, _ => 0
  | _ :: _, [], _ => 0
  | d :: ds, l :: ls, z => (if l = z then f d else 0) + aggF f ds ls z

/-- Consistency of the statistics with the labelled corpus: every count is
the aggregate of the contributions of the documents carrying that label,
the dictionaries have unique keys and strictly positive values, and all
labels are in range. -/
structure Wf (docs : List (List Token)) (labels : List ℕ) (m : Model) : Prop where
  len_labels : labels.length = docs.length
  labels_lt : ∀ l ∈ labels, l < m.K
  len_cdc : m.cluster_doc_count.length = m.K
  len_cwc : m.cluster_word_count.length = m.K
  len_cwd : m.cluster_word_distribution.length = m.K
  cdc_eq : ∀ z, z < m.K →
    m.cluster_doc_count.getD z 0 = aggF (fun _ => 1) docs labels z
  cwc_eq : ∀ z, z < m.K →
    m.cluster_word_count.getD z 0 = aggF (fun d => (d.length : ℤ)) docs labels z
  tok_eq : ∀ z, z < m.K → ∀ w,
    getCount (distAt m z) w = aggF (fun d => (countTok d w : ℤ)) docs labels z
  cwc_sum : ∀ z, z < m.K →
    m.cluster_word_count.getD z 0 = sumValues (distAt m z)
  keys_nodup : ∀ z, z < m.K → ((distAt m z).map (fun kv => kv.1)).Nodup
  vals_pos : ∀ z, z < m.K → ∀ kv ∈ distAt m z, 1 ≤ kv.2

/-- The invariant asserted by the specification: the document counts sum to
`D`, each cluster's word count equals the sum of its distribution's values,
and no token maps to a non-positive count. -/
def ClaimInv (D : ℕ) (m : Model) : Prop :=
  m.cluster_doc_count.sum = (D : ℤ) ∧
  (∀ z, z < m.K → m.cluster_word_count.getD z 0 = sumValues (distAt m z)) ∧
  (∀ z, z < m.K → ∀ kv ∈ distAt m z, 0 < kv.2)

/-- Zero-initialized statistics, as left by `__init__`. -/
def Fresh (m : Model) : Prop :=
  m.cluster_doc_count = List.replicate m.K 0 ∧
  m.cluster_word_count = List.replicate m.K 0 ∧
  m.cluster_word_distribution = List.replicate m.K []

/-- Statistics that satisfy the data-model ranges of the specification:
nonnegative counts and strictly positive dictionary entries. -/
def ValidStats (m : Model) : Prop :=
  (∀ x ∈ m.cluster_doc_count, 0 ≤ x) ∧
  (∀ x ∈ m.cluster_word_count, 0 ≤ x) ∧
  (∀ d ∈ m.cluster_word_distribution, ∀ kv ∈ d, 1 ≤ kv.2)

/-- Every argument that `score` passes to `log` (mgp.py lines 234, 237, 241
and 243), in evaluation order. -/
def scoreLogArgs (m : Model) (doc : List Token) : List ℝ :=
  ((m.number_docs : ℝ) - 1 + (m.K : ℝ) * m.alpha) ::
    (List.range m.K).flatMap (fun label =>
      (((m.cluster_doc_count.getD label 0 : ℤ) : ℝ) + m.alpha) ::
        (doc.map (fun w => ((getCount (distAt m label) w : ℤ) : ℝ) + m.beta) ++
          (List.range' 1 doc.length).map (fun (j : ℕ) =>
            ((m.cluster_word_count.getD label 0 : ℤ) : ℝ) +
              (m.vocab_size : ℝ) * m.beta + (j : ℝ) - 1)))

/-- A model with `alpha = 0` and an empty cluster: `score` then passes a
non-positive argument to `log`. -/
def mAlphaZero : Model := fromData 1 0 1 1 1 [0] [0] [[]]

/-- A model with positive `alpha`, `beta` and one document but an empty
vocabulary (`vocab_size = 0`): scoring a one-token document against its
empty cluster passes `0 + 0*beta + 1 - 1 = 0` to `log`. -/
def mVocabZero : Model := fromData 1 1 1 1 0 [0] [0] [[]]

/-- The per-cluster unnormalized posterior weight exactly as the
specification writes it (§4.3): `exp(lN1 - lD1 + lN2 - lD2)` with `lN2` a
sum over the token occurrences of the document and `lD2` a sum over the
positions `j = 1 .. len(doc)`. -/
noncomputable def scoreWeightFormula (m : Model) (doc : List Token) (z : ℕ) : ℝ :=
  Real.exp (
    Real.log (((m.cluster_doc_count.getD z 0 : ℤ) : ℝ) + m.alpha)
    - Real.log ((m.number_docs : ℝ) - 1 + (m.K : ℝ) * m.alpha)
    + (doc.map (fun w => Real.log (((getCount (distAt m z) w : ℤ) : ℝ) + m.beta))).sum
    - ∑ j ∈ Finset.Icc 1 doc.length,
        Real.log (((m.cluster_word_count.getD z 0 : ℤ) : ℝ)
          + (m.vocab_size : ℝ) * m.beta + (j : ℝ) - 1))

/-- The bookkeeping needed to trace `sum(cluster_doc_count)` through `fit`
without assuming anything else about the statistics: the count list has
length `K` and every recorded label is in range. -/
def AccOk (acc : FitAcc) : Prop :=
  acc.model.cluster_doc_count.length = acc.model.K ∧
  ∀ l ∈ acc.d_z, l < acc.model.K

/-! Basic list lemmas used throughout. -/

theorem getD_set_same {α : Type} (l : List α) (i : ℕ) (v d : α) (h : i < l.length) :
    (l.set i v).getD i d = v := by
  rw [List.getD_eq_getElem _ _ (by simpa using h)]
  simp [List.getElem_set, h]

theorem getD_set_other {α : Type} (l : List α) (i j : ℕ) (v d : α) (hij : i ≠ j) :
    (l.set i v).getD j d = l.getD j d := by
  by_cases hj : j < l.length
  · rw [List.getD_eq_getElem _ _ (by simpa using hj), List.getD_eq_getElem _ _ hj]
    simp [List.getElem_set, hij]
  · rw [List.getD_eq_default _ _ (by simpa using Nat.le_of_not_lt hj),
      List.getD_eq_default _ _ (Nat.le_of_not_lt hj)]

theorem sum_set_int (l : List ℤ) (i : ℕ) (v : ℤ) (h : i < l.length) :
    (l.set i v).sum = l.sum - l.getD i 0 + v := by
  induction l generalizing i with
  | nil => simp at h
  | cons a rest ih =>
    cases i with
    | zero => simp [List.sum_cons]; ring
    | succ n =>
      have hn : n < rest.length := by simpa using h
      simp only [List.set, List.sum_cons, List.getD_cons_succ, ih n hn]
      ring

theorem getD_replicate {α : Type} (n i : ℕ) (a : α) :
    (List.replicate n a).getD i a = a := by
  by_cases h : i < n
  · rw [List.getD_eq_getElem _ _ (by simpa using h)]
    simp
  · exact List.getD_eq_default _ _ (by simpa using Nat.le_of_not_lt h)

theorem getD_append_length {α : Type} (pre : List α) (x : α) (rest : List α) (d : α) :
    (pre ++ x :: rest).getD pre.length d = x := by
  rw [List.getD_append_right _ _ _ _ (Nat.le_refl _)]
  simp

theorem getD_take {α : Type} (l : List α) (i j : ℕ) (d : α) (h : j < i) :
    (l.take i).getD j d = l.getD j d := by
  by_cases hj : j < l.length
  · have hjt : j < (l.take i).length := by
      simp only [List.length_take]
      exact lt_min h hj
    rw [List.getD_eq_getElem _ _ hjt, List.getD_eq_getElem _ _ hj]
    simp
  · rw [List.getD_eq_default _ _ (Nat.le_of_not_lt hj),
      List.getD_eq_default _ _ (by simp only [List.length_take]; omega)]

theorem sum_eq_sum_getD (l : List ℤ) :
    l.sum = ∑ z ∈ Finset.range l.length, l.getD z 0 := by
  induction l with
  | nil => simp
  | cons a rest ih =>
    rw [List.sum_cons, ih, List.length_cons, Finset.sum_range_succ']
    simp [List.getD_cons_succ, List.getD_cons_zero, add_comm]

theorem sum_map_listRange (n : ℕ) (f : ℕ → ℝ) :
    ((List.range n).map f).sum = ∑ i ∈ Finset.range n, f i := by
  induction n with
  | zero => simp
  | succ k ih => rw [List.range_succ, Finset.sum_range_succ, List.map_append, List.sum_append, ih]; simp

theorem foldl_add_eq_sum (g : Token → ℝ) (l : List Token) (a : ℝ) :
    l.foldl (fun s x => s + g x) a = a + (l.map g).sum := by
  induction l generalizing a with
  | nil => simp
  | cons x rest ih => simp [ih, add_assoc]

theorem foldl_add_eq_sum_nat (g : ℕ → ℝ) (l : List ℕ) (a : ℝ) :
    l.foldl (fun s x => s + g x) a = a + (l.map g).sum := by
  induction l generalizing a with
  | nil => simp
  | cons x rest ih => simp [ih, add_assoc]

/-! Lemmas about the word-distribution dictionary operations. -/

theorem getCount_nonneg {d : WordDist} (hpos : ∀ kv ∈ d, 1 ≤ kv.2) (w : Token) :
    0 ≤ getCount d w := by
  induction d with
  | nil => simp [getCount]
  | cons kv rest ih =>
    obtain ⟨k, v⟩ := kv
    simp only [getCount]
    by_cases hk : k = w
    · simpa [hk] using le_trans zero_le_one (hpos (k, v) (by simp))
    · exact (by simpa [hk] using ih (fun e he => hpos e (List.mem_cons_of_mem _ he)))

theorem incWord_getCount_self (d : WordDist) (w : Token) :
    getCount (incWord d w) w = getCount d w + 1 := by
  induction d with
  | nil => simp [incWord, getCount]
  | cons kv rest ih =>
    obtain ⟨k, v⟩ := kv
    by_cases hk : k = w
    · simp [incWord, getCount, hk]
    · simp [incWord, getCount, hk, ih]

theorem incWord_getCount_other (d : WordDist) (w u : Token) (hwu : w ≠ u) :
    getCount (incWord d w) u = getCount d u := by
  induction d with
  | nil => simp [incWord, getCount, hwu]
  | cons kv rest ih =>
    obtain ⟨k, v⟩ := kv
    by_cases hk : k = w
    · subst hk
      simp [incWord, getCount, hwu]
    · simp [incWord, getCount, hk, ih]

theorem incWord_sumValues (d : WordDist) (w : Token) :
    sumValues (incWord d w) = sumValues d + 1 := by
  induction d with
  | nil => simp [incWord, sumValues]
  | cons kv rest ih =>
    obtain ⟨k, v⟩ := kv
    by_cases hk : k = w
    · simp [incWord, sumValues, hk]; ring
    · simp only [incWord, hk, if_false, sumValues, List.map_cons, List.sum_cons] at ih ⊢
      rw [ih]; ring

theorem incWord_keys_mem (d : WordDist) (w u : Token)
    (h : u ∈ (incWord d w).map (fun kv => kv.1)) :
    u ∈ d.map (fun kv => kv.1) ∨ u = w := by
  induction d with
  | nil =>
    simp [incWord] at h
    exact Or.inr h
  | cons kv rest ih =>
    obtain ⟨k, v⟩ := kv
    by_cases hk : k = w
    · subst hk
      simp only [incWord, if_true, List.map_cons, List.mem_cons] at h
      rcases h with h | h
      · exact Or.inl (by simp [h])
      · exact Or.inl (by simp only [List.map_cons, List.mem_cons]; exact Or.inr h)
    · simp only [incWord, hk, if_false, List.map_cons, List.mem_cons] at h
      rcases h with h | h
      · exact Or.inl (by simp [h])
      · rcases ih h with h2 | h2
        · exact Or.inl (by simp only [List.map_cons, List.mem_cons]; exact Or.inr h2)
        · exact Or.inr h2

theorem incWord_keys_nodup (d : WordDist) (w : Token)
    (h : (d.map (fun kv => kv.1)).Nodup) :
    ((incWord d w).map (fun kv => kv.1)).Nodup := by
  induction d with
  | nil => simp [incWord]
  | cons kv rest ih =>
    obtain ⟨k, v⟩ := kv
    simp only [List.map_cons, List.nodup_cons] at h
    by_cases hk : k = w
    · subst hk
      simp only [incWord, if_true, List.map_cons, List.nodup_cons]
      exact h
    · simp only [incWord, hk, if_false, List.map_cons, List.nodup_cons]
      refine ⟨?_, ih h.2⟩
      intro hmem
      rcases incWord_keys_mem rest w k hmem with h2 | h2
      · exact h.1 h2
      · exact hk h2

theorem incWord_vals_pos (d : WordDist) (w : Token)
    (h : ∀ kv ∈ d, 1 ≤ kv.2) :
    ∀ kv ∈ incWord d w, 1 ≤ kv.2 := by
  induction d with
  | nil =>
    intro kv hkv
    simp [incWord] at hkv
    subst hkv
    norm_num
  | cons kv0 rest ih =>
    obtain ⟨k, v⟩ := kv0
    intro kv hkv
    by_cases hk : k = w
    · simp only [incWord, hk, if_true] at hkv
      rcases List.mem_cons.mp hkv with h1 | h1
      · subst h1
        have := h (k, v) (by simp)
        simpa using by linarith [this]
      · exact h kv (List.mem_cons_of_mem _ h1)
    · simp only [incWord, hk, if_false] at hkv
      rcases List.mem_cons.mp hkv with h1 | h1
      · subst h1
        exact h (k, v) (by simp)
      · exact ih (fun e he => h e (List.mem_cons_of_mem _ he)) kv h1


theorem getCount_eq_zero (d : WordDist) (w : Token)
    (h : w ∉ d.map (fun kv => kv.1)) : getCount d w = 0 := by
  induction d with
  | nil => rfl
  | cons kv rest ih =>
    obtain ⟨k, v⟩ := kv
    simp only [List.map_cons, List.mem_cons] at h
    push_neg at h
    have hkw : ¬ k = w := fun hk => h.1 hk.symm
    simp only [getCount, if_neg hkw]
    exact ih h.2

theorem decWord_getCount_self (d : WordDist) (w : Token)
    (hnd : (d.map (fun kv => kv.1)).Nodup) (h1 : 1 ≤ getCount d w) :
    getCount (decWord d w) w = getCount d w - 1 := by
  induction d with
  | nil => simp [getCount] at h1
  | cons kv rest ih =>
    obtain ⟨k, v⟩ := kv
    simp only [List.map_cons, List.nodup_cons] at hnd
    by_cases hk : k = w
    · subst hk
      simp only [getCount, if_pos] at h1
      by_cases hv : v - 1 = 0
      · simp only [decWord, hv, if_pos, if_true]
        rw [getCount_eq_zero rest k hnd.1]
        simp only [getCount, if_pos]
        omega
      · simp [decWord, hv, getCount]
    · simp only [getCount, if_neg hk] at h1
      simp only [decWord, if_neg hk, getCount]
      exact ih hnd.2 h1

theorem decWord_getCount_other (d : WordDist) (w u : Token) (hwu : u ≠ w) :
    getCount (decWord d w) u = getCount d u := by
  induction d with
  | nil => simp [decWord]
  | cons kv rest ih =>
    obtain ⟨k, v⟩ := kv
    by_cases hk : k = w
    · subst hk
      have hku : ¬ k = u := fun h => hwu h.symm
      by_cases hv : v - 1 = 0
      · simp [decWord, hv, getCount, hku]
      · simp [decWord, hv, getCount, hku]
    · by_cases hku : k = u
      · subst hku
        simp [decWord, hk, getCount]
      · simp [decWord, hk, getCount, hku, ih]

theorem decWord_sumValues (d : WordDist) (w : Token) (h1 : 1 ≤ getCount d w) :
    sumValues (decWord d w) = sumValues d - 1 := by
  induction d with
  | nil => simp [getCount] at h1
  | cons kv rest ih =>
    obtain ⟨k, v⟩ := kv
    by_cases hk : k = w
    · subst hk
      simp only [getCount, if_pos] at h1
      by_cases hv : v - 1 = 0
      · simp only [decWord, hv, if_pos, if_true, sumValues, List.map_cons, List.sum_cons]
        omega
      · simp only [decWord, hv, if_pos, if_false, sumValues, List.map_cons, List.sum_cons]
        ring
    · simp only [getCount, if_neg hk] at h1
      simp only [decWord, if_neg hk, sumValues, List.map_cons, List.sum_cons]
      have h2 := ih h1
      simp only [sumValues] at h2
      rw [h2]
      ring

theorem decWord_keys_mem (d : WordDist) (w u : Token)
    (h : u ∈ (decWord d w).map (fun kv => kv.1)) :
    u ∈ d.map (fun kv => kv.1) := by
  induction d with
  | nil => simp [decWord] at h
  | cons kv rest ih =>
    obtain ⟨k, v⟩ := kv
    by_cases hk : k = w
    · subst hk
      by_cases hv : v - 1 = 0
      · simp only [decWord, hv, if_pos, if_true] at h
        exact (by simp only [List.map_cons, List.mem_cons]; exact Or.inr h)
      · simp only [decWord, hv, if_pos, if_false, List.map_cons, List.mem_cons] at h ⊢
        exact h
    · simp only [decWord, if_neg hk, List.map_cons, List.mem_cons] at h ⊢
      rcases h with h | h
      · exact Or.inl h
      · exact Or.inr (ih h)

theorem decWord_keys_nodup (d : WordDist) (w : Token)
    (hnd : (d.map (fun kv => kv.1)).Nodup) :
    ((decWord d w).map (fun kv => kv.1)).Nodup := by
  induction d with
  | nil => simp [decWord]
  | cons kv rest ih =>
    obtain ⟨k, v⟩ := kv
    simp only [List.map_cons, List.nodup_cons] at hnd
    by_cases hk : k = w
    · subst hk
      by_cases hv : v - 1 = 0
      · simpa [decWord, hv] using hnd.2
      · simp only [decWord, hv, if_pos, if_false, List.map_cons, List.nodup_cons]
        exact hnd
    · simp only [decWord, if_neg hk, List.map_cons, List.nodup_cons]
      exact ⟨fun hmem => hnd.1 (decWord_keys_mem rest w k hmem), ih hnd.2⟩

theorem decWord_vals_pos (d : WordDist) (w : Token)
    (hpos : ∀ kv ∈ d, 1 ≤ kv.2) :
    ∀ kv ∈ decWord d w, 1 ≤ kv.2 := by
  induction d with
  | nil => simp [decWord]
  | cons kv0 rest ih =>
    obtain ⟨k, v⟩ := kv0
    intro kv hkv
    by_cases hk : k = w
    · subst hk
      by_cases hv : v - 1 = 0
      · simp only [decWord, hv, if_pos, if_true] at hkv
        exact hpos kv (List.mem_cons_of_mem _ hkv)
      · simp only [decWord, hv, if_pos, if_false] at hkv
        rcases List.mem_cons.mp hkv with h1 | h1
        · subst h1
          have hv1 := hpos (k, v) (by simp)
          simp only at hv1 ⊢
          omega
        · exact hpos kv (List.mem_cons_of_mem _ h1)
    · simp only [decWord, if_neg hk] at hkv
      rcases List.mem_cons.mp hkv with h1 | h1
      · subst h1
        exact hpos (k, v) (by simp)
      · exact ih (fun e he => hpos e (List.mem_cons_of_mem _ he)) kv h1

/-- Combined effect of adding one document's tokens to a distribution
(the `for word in doc` increment loop). -/
theorem incFold_spec (doc : List Token) (d : WordDist) :
    (∀ u, getCount (doc.foldl incWord d) u = getCount d u + countTok doc u) ∧
    sumValues (doc.foldl incWord d) = sumValues d + doc.length ∧
    ((d.map (fun kv => kv.1)).Nodup →
      ((doc.foldl incWord d).map (fun kv => kv.1)).Nodup) ∧
    ((∀ kv ∈ d, 1 ≤ kv.2) → ∀ kv ∈ doc.foldl incWord d, 1 ≤ kv.2) := by
  induction doc generalizing d with
  | nil =>
    refine ⟨fun u => ?_, ?_, fun h => h, fun h => h⟩
    · simp [countTok]
    · simp
  | cons w rest ih =>
    have hstep := ih (incWord d w)
    simp only [List.foldl_cons]
    refine ⟨?_, ?_, ?_, ?_⟩
    · intro u
      rw [hstep.1 u]
      by_cases hu : w = u
      · subst hu
        rw [incWord_getCount_self]
        simp only [countTok, if_pos]
        push_cast
        ring
      · rw [incWord_getCount_other d w u hu]
        simp only [countTok, if_neg hu]
        push_cast
        ring
    · rw [hstep.2.1, incWord_sumValues]
      simp only [List.length_cons]
      push_cast
      ring
    · intro hnd
      exact hstep.2.2.1 (incWord_keys_nodup d w hnd)
    · intro hpos
      exact hstep.2.2.2 (incWord_vals_pos d w hpos)

/-- Combined effect of removing one document's tokens from a distribution
(the `for word in doc` decrement loop), under the guarantee that the
distribution holds at least the document's own occurrences. -/
theorem decFold_spec (doc : List Token) :
    ∀ d : WordDist, (d.map (fun kv => kv.1)).Nodup → (∀ kv ∈ d, 1 ≤ kv.2) →
    (∀ u, (countTok doc u : ℤ) ≤ getCount d u) →
    (∀ u, getCount (doc.foldl decWord d) u = getCount d u - countTok doc u) ∧
    sumValues (doc.foldl decWord d) = sumValues d - doc.length ∧
    ((doc.foldl decWord d).map (fun kv => kv.1)).Nodup ∧
    (∀ kv ∈ doc.foldl decWord d, 1 ≤ kv.2) := by
  induction doc with
  | nil =>
    intro d hnd hpos _
    refine ⟨fun u => ?_, ?_, hnd, hpos⟩
    · simp [countTok]
    · simp
  | cons w rest ih =>
    intro d hnd hpos hle
    have h1w : 1 ≤ getCount d w := by
      have hw := hle w
      simp only [countTok, if_pos] at hw
      push_cast at hw
      omega
    have hnd2 := decWord_keys_nodup d w hnd
    have hpos2 := decWord_vals_pos d w hpos
    have hle2 : ∀ u, (countTok rest u : ℤ) ≤ getCount (decWord d w) u := by
      intro u
      by_cases hu : u = w
      · subst hu
        rw [decWord_getCount_self d u hnd h1w]
        have hw := hle u
        simp only [countTok, if_pos] at hw
        push_cast at hw ⊢
        omega
      · rw [decWord_getCount_other d w u hu]
        have hw := hle u
        have hwu : ¬ w = u := fun h => hu h.symm
        simp only [countTok, if_neg hwu] at hw
        push_cast at hw ⊢
        omega
    have hstep := ih (decWord d w) hnd2 hpos2 hle2
    simp only [List.foldl_cons]
    refine ⟨?_, ?_, hstep.2.2.1, hstep.2.2.2⟩
    · intro u
      rw [hstep.1 u]
      by_cases hu : u = w
      · subst hu
        rw [decWord_getCount_self d u hnd h1w]
        simp only [countTok, if_pos]
        push_cast
        ring
      · rw [decWord_getCount_other d w u hu]
        have hwu : ¬ w = u := fun h => hu h.symm
        simp only [countTok, if_neg hwu]
        push_cast
        ring
    · rw [hstep.2.1, decWord_sumValues d w h1w]
      simp only [List.length_cons]
      push_cast
      ring

/-! Lemmas about the per-cluster aggregates `aggF`. -/

theorem aggF_nonneg (f : List Token → ℤ) (hf : ∀ d, 0 ≤ f d) :
    ∀ (ds : List (List Token)) (ls : List ℕ) (z : ℕ), 0 ≤ aggF f ds ls z := by
  intro ds
  induction ds with
  | nil => intro ls z; simp [aggF]
  | cons d ds2 ih =>
    intro ls z
    cases ls with
    | nil => simp [aggF]
    | cons l ls2 =>
      simp only [aggF]
      have h2 := ih ls2 z
      by_cases hl : l = z
      · rw [if_pos hl]
        have h3 := hf d
        linarith
      · rw [if_neg hl]
        simpa using h2

theorem aggF_set (f : List Token → ℤ) :
    ∀ (ds : List (List Token)) (ls : List ℕ) (i : ℕ) (zn z : ℕ),
    ds.length = ls.length → i < ls.length →
    aggF f ds (ls.set i zn) z =
      aggF f ds ls z - (if ls.getD i 0 = z then f (ds.getD i []) else 0)
        + (if zn = z then f (ds.getD i []) else 0) := by
  intro ds
  induction ds with
  | nil =>
    intro ls i zn z hlen hi
    rw [← hlen] at hi
    simp at hi
  | cons d ds2 ih =>
    intro ls i zn z hlen hi
    cases ls with
    | nil => simp at hi
    | cons l ls2 =>
      cases i with
      | zero =>
        simp only [List.set_cons_zero, aggF, List.getD_cons_zero]
        ring
      | succ n =>
        have hlen2 : ds2.length = ls2.length := by simpa using hlen
        have hn : n < ls2.length := by simpa using hi
        simp only [List.set_cons_succ, aggF, List.getD_cons_succ]
        rw [ih ls2 n zn z hlen2 hn]
        ring

theorem aggF_ge_single (f : List Token → ℤ) (hf : ∀ d, 0 ≤ f d) :
    ∀ (ds : List (List Token)) (ls : List ℕ) (i : ℕ),
    ds.length = ls.length → i < ls.length →
    f (ds.getD i []) ≤ aggF f ds ls (ls.getD i 0) := by
  intro ds
  induction ds with
  | nil =>
    intro ls i hlen hi
    rw [← hlen] at hi
    simp at hi
  | cons d ds2 ih =>
    intro ls i hlen hi
    cases ls with
    | nil => simp at hi
    | cons l ls2 =>
      cases i with
      | zero =>
        simp only [aggF, List.getD_cons_zero, if_pos]
        have h2 := aggF_nonneg f hf ds2 ls2 l
        linarith
      | succ n =>
        have hlen2 : ds2.length = ls2.length := by simpa using hlen
        have hn : n < ls2.length := by simpa using hi
        have h2 := ih ls2 n hlen2 hn
        simp only [aggF, List.getD_cons_succ]
        have hif : 0 ≤ (if l = ls2.getD n 0 then f d else 0) := by
          by_cases hl : l = ls2.getD n 0
          · rw [if_pos hl]; exact hf d
          · rw [if_neg hl]
        linarith

theorem aggF_append (f : List Token → ℤ) :
    ∀ (ds : List (List Token)) (ls : List ℕ) (d : List Token) (l z : ℕ),
    ds.length = ls.length →
    aggF f (ds ++ [d]) (ls ++ [l]) z = aggF f ds ls z + (if l = z then f d else 0) := by
  intro ds
  induction ds with
  | nil =>
    intro ls d l z hlen
    have hls : ls = [] := List.length_eq_zero.mp hlen.symm
    subst hls
    simp [aggF]
  | cons d0 ds2 ih =>
    intro ls d l z hlen
    cases ls with
    | nil => simp at hlen
    | cons l0 ls2 =>
      have hlen2 : ds2.length = ls2.length := by simpa using hlen
      have he1 : (d0 :: ds2) ++ [d] = d0 :: (ds2 ++ [d]) := rfl
      have he2 : (l0 :: ls2) ++ [l] = l0 :: (ls2 ++ [l]) := rfl
      rw [he1, he2]
      simp only [aggF]
      rw [ih ls2 d l z hlen2]
      ring

theorem aggDoc_sum (K : ℕ) :
    ∀ (ds : List (List Token)) (ls : List ℕ), ds.length = ls.length →
    (∀ l ∈ ls, l < K) →
    ∑ z ∈ Finset.range K, aggF (fun _ => (1 : ℤ)) ds ls z = (ls.length : ℤ) := by
  intro ds
  induction ds with
  | nil =>
    intro ls hlen _
    have hls : ls = [] := List.length_eq_zero.mp hlen.symm
    subst hls
    simp [aggF]
  | cons d ds2 ih =>
    intro ls hlen hlt
    cases ls with
    | nil => simp at hlen
    | cons l ls2 =>
      have hlen2 : ds2.length = ls2.length := by simpa using hlen
      simp only [aggF]
      rw [Finset.sum_add_distrib, ih ls2 hlen2 (fun x hx => hlt x (List.mem_cons_of_mem _ hx)),
        Finset.sum_ite_eq (Finset.range K) l (fun _ => (1 : ℤ))]
      have hlK : l ∈ Finset.range K := Finset.mem_range.mpr (hlt l (by simp))
      rw [if_pos hlK]
      simp only [List.length_cons]
      push_cast
      ring

theorem getD_double_set (a : List ℤ) (zo zn z : ℕ) (xo xn : ℤ)
    (hzo : zo < a.length) (hzn : zn < a.length) :
    ((a.set zo (a.getD zo 0 + xo)).set zn
        ((a.set zo (a.getD zo 0 + xo)).getD zn 0 + xn)).getD z 0
      = a.getD z 0 + (if zo = z then xo else 0) + (if zn = z then xn else 0) := by
  by_cases h1 : zn = z
  · subst h1
    rw [getD_set_same _ _ _ _ (by simpa using hzn)]
    by_cases h2 : zo = zn
    · subst h2
      rw [getD_set_same _ _ _ _ hzo, if_pos rfl, if_pos rfl]
    · rw [getD_set_other _ _ _ _ _ h2, if_neg h2, if_pos rfl]
      ring
  · rw [getD_set_other _ _ _ _ _ h1]
    by_cases h2 : zo = z
    · subst h2
      rw [getD_set_same _ _ _ _ hzo, if_pos rfl, if_neg h1]
      ring
    · rw [getD_set_other _ _ _ _ _ h2, if_neg h2, if_neg h1]
      ring

theorem getD_double_set_dist (a : List WordDist) (zo zn z : ℕ)
    (fo fn : WordDist → WordDist) (hzo : zo < a.length) (hzn : zn < a.length) :
    ((a.set zo (fo (a.getD zo []))).set zn
        (fn ((a.set zo (fo (a.getD zo []))).getD zn []))).getD z []
      = (if zn = z then fn (if zo = z then fo (a.getD z []) else a.getD z [])
          else (if zo = z then fo (a.getD z []) else a.getD z [])) := by
  by_cases h1 : zn = z
  · subst h1
    rw [getD_set_same _ _ _ _ (by simpa using hzn), if_pos rfl]
    by_cases h2 : zo = zn
    · subst h2
      rw [getD_set_same _ _ _ _ hzo, if_pos rfl]
    · rw [getD_set_other _ _ _ _ _ h2, if_neg h2]
  · rw [getD_set_other _ _ _ _ _ h1, if_neg h1]
    by_cases h2 : zo = z
    · subst h2
      rw [getD_set_same _ _ _ _ hzo, if_pos rfl]
    · rw [getD_set_other _ _ _ _ _ h2, if_neg h2]

/-- The specification invariant follows from consistency with the labelled
corpus. -/
theorem wf_claimInv {docs : List (List Token)} {labels : List ℕ} {m : Model}
    (h : Wf docs labels m) : ClaimInv docs.length m := by
  refine ⟨?_, h.cwc_sum, ?_⟩
  · rw [sum_eq_sum_getD, h.len_cdc]
    have hcong : ∑ z ∈ Finset.range m.K, m.cluster_doc_count.getD z 0
        = ∑ z ∈ Finset.range m.K, aggF (fun _ => (1 : ℤ)) docs labels z :=
      Finset.sum_congr rfl (fun z hz => h.cdc_eq z (Finset.mem_range.mp hz))
    rw [hcong, aggDoc_sum m.K docs labels h.len_labels.symm h.labels_lt, h.len_labels]
  · intro z hz kv hkv
    have h1 := h.vals_pos z hz kv hkv
    omega

/-- One remove-then-add reassignment of document `i` to any in-range new
cluster preserves consistency with the relabelled corpus. -/
theorem step_wf {docs : List (List Token)} {labels : List ℕ} {m : Model} {i zn : ℕ}
    (h : Wf docs labels m) (hi : i < docs.length) (hzn : zn < m.K) :
    Wf docs (labels.set i zn)
      (addDoc (removeDoc m (labels.getD i 0) (docs.getD i [])) zn (docs.getD i [])) := by
  have hilab : i < labels.length := by rw [h.len_labels]; exact hi
  set doc := docs.getD i [] with hdoc_def
  set zo := labels.getD i 0 with hzo_def
  have hzo : zo < m.K := by
    have hmem : zo ∈ labels := by
      rw [hzo_def, List.getD_eq_getElem _ _ hilab]
      exact List.getElem_mem _
    exact h.labels_lt zo hmem
  have hnd0 := h.keys_nodup zo hzo
  have hpos0 := h.vals_pos zo hzo
  have hle0 : ∀ u, (countTok doc u : ℤ) ≤ getCount (distAt m zo) u := by
    intro u
    rw [h.tok_eq zo hzo u]
    exact aggF_ge_single (fun d => (countTok d u : ℤ))
      (fun d => Int.natCast_nonneg _) docs labels i h.len_labels.symm hilab
  have hdec := decFold_spec doc (distAt m zo) hnd0 hpos0 hle0
  have hinc := fun d : WordDist => incFold_spec doc d
  have hagg : ∀ (f : List Token → ℤ) z, aggF f docs (labels.set i zn) z
      = aggF f docs labels z - (if zo = z then f doc else 0)
        + (if zn = z then f doc else 0) :=
    fun f z => aggF_set f docs labels i zn z h.len_labels.symm hilab
  have hcdc2 : ∀ z, (addDoc (removeDoc m zo doc) zn doc).cluster_doc_count.getD z 0
      = m.cluster_doc_count.getD z 0 + (if zo = z then -1 else 0)
        + (if zn = z then 1 else 0) := by
    intro z
    have hds := getD_double_set m.cluster_doc_count zo zn z (-1) 1
      (h.len_cdc ▸ hzo) (h.len_cdc ▸ hzn)
    simpa [addDoc, removeDoc, sub_eq_add_neg] using hds
  have hcwc2 : ∀ z, (addDoc (removeDoc m zo doc) zn doc).cluster_word_count.getD z 0
      = m.cluster_word_count.getD z 0 + (if zo = z then -(doc.length : ℤ) else 0)
        + (if zn = z then (doc.length : ℤ) else 0) := by
    intro z
    have hds := getD_double_set m.cluster_word_count zo zn z (-(doc.length : ℤ))
      (doc.length : ℤ) (h.len_cwc ▸ hzo) (h.len_cwc ▸ hzn)
    simpa [addDoc, removeDoc, sub_eq_add_neg] using hds
  have hcwd2 : ∀ z, distAt (addDoc (removeDoc m zo doc) zn doc) z
      = (if zn = z then doc.foldl incWord
            (if zo = z then doc.foldl decWord (distAt m z) else distAt m z)
          else (if zo = z then doc.foldl decWord (distAt m z) else distAt m z)) := by
    intro z
    have hds := getD_double_set_dist m.cluster_word_distribution zo zn z
      (fun d => doc.foldl decWord d) (fun d => doc.foldl incWord d)
      (h.len_cwd ▸ hzo) (h.len_cwd ▸ hzn)
    simpa [distAt, addDoc, removeDoc] using hds
  have hK2 : (addDoc (removeDoc m zo doc) zn doc).K = m.K := rfl
  refine ⟨?_, ?_, ?_, ?_, ?_, ?_, ?_, ?_, ?_, ?_, ?_⟩
  · rw [List.length_set]
    exact h.len_labels
  · intro l hl
    rw [hK2]
    rcases List.mem_or_eq_of_mem_set hl with h1 | h1
    · exact h.labels_lt l h1
    · subst h1
      exact hzn
  · simpa [addDoc, removeDoc] using h.len_cdc
  · simpa [addDoc, removeDoc] using h.len_cwc
  · simpa [addDoc, removeDoc] using h.len_cwd
  · intro z hz
    rw [hK2] at hz
    rw [hcdc2 z, hagg (fun _ => (1 : ℤ)) z, h.cdc_eq z hz]
    split_ifs <;> ring
  · intro z hz
    rw [hK2] at hz
    rw [hcwc2 z, hagg (fun d => (d.length : ℤ)) z, h.cwc_eq z hz]
    split_ifs <;> ring
  · intro z hz w
    rw [hK2] at hz
    rw [hcwd2 z, hagg (fun d => (countTok d w : ℤ)) z, ← h.tok_eq z hz w]
    by_cases h1 : zn = z
    · by_cases h2 : zo = z
      · rw [if_pos h1, if_pos h2, if_pos h1, if_pos h2, (hinc _).1 w, ← h2, hdec.1 w]
      · rw [if_pos h1, if_neg h2, if_pos h1, if_neg h2, (hinc _).1 w]
        ring
    · by_cases h2 : zo = z
      · rw [if_neg h1, if_pos h2, if_neg h1, if_pos h2, ← h2, hdec.1 w]
        ring
      · rw [if_neg h1, if_neg h2, if_neg h1, if_neg h2]
        ring
  · intro z hz
    rw [hK2] at hz
    rw [hcwc2 z, hcwd2 z, h.cwc_sum z hz]
    by_cases h1 : zn = z
    · by_cases h2 : zo = z
      · rw [if_pos h1, if_pos h2, if_pos h1, if_pos h2, (hinc _).2.1, ← h2, hdec.2.1]
        ring
      · rw [if_pos h1, if_neg h2, if_pos h1, if_neg h2, (hinc _).2.1]
        ring
    · by_cases h2 : zo = z
      · rw [if_neg h1, if_pos h2, if_neg h1, if_pos h2, ← h2, hdec.2.1]
        ring
      · rw [if_neg h1, if_neg h2, if_neg h1, if_neg h2]
        ring
  · intro z hz
    rw [hK2] at hz
    rw [hcwd2 z]
    by_cases h1 : zn = z
    · by_cases h2 : zo = z
      · rw [if_pos h1, if_pos h2, ← h2]
        exact (hinc _).2.2.1 hdec.2.2.1
      · rw [if_pos h1, if_neg h2]
        exact (hinc _).2.2.1 (h.keys_nodup z hz)
    · by_cases h2 : zo = z
      · rw [if_neg h1, if_pos h2, ← h2]
        exact hdec.2.2.1
      · rw [if_neg h1, if_neg h2]
        exact h.keys_nodup z hz
  · intro z hz
    rw [hK2] at hz
    rw [hcwd2 z]
    by_cases h1 : zn = z
    · by_cases h2 : zo = z
      · rw [if_pos h1, if_pos h2, ← h2]
        exact (hinc _).2.2.2 hdec.2.2.2
      · rw [if_pos h1, if_neg h2]
        exact (hinc _).2.2.2 (h.vals_pos z hz)
    · by_cases h2 : zo = z
      · rw [if_neg h1, if_pos h2, ← h2]
        exact hdec.2.2.2
      · rw [if_neg h1, if_neg h2]
        exact h.vals_pos z hz

theorem score_length (m : Model) (doc : List Token) : (score m doc).length = m.K := by
  simp [score, scoreRaw]

/-- Adding one freshly labelled document at the end of the corpus preserves
consistency (this is the initialization update). -/
theorem add_wf {docs : List (List Token)} {labels : List ℕ} {m : Model}
    (h : Wf docs labels m) (doc : List Token) {z : ℕ} (hz : z < m.K) :
    Wf (docs ++ [doc]) (labels ++ [z]) (addDoc m z doc) := by
  have hinc := incFold_spec doc (distAt m z)
  have hK2 : (addDoc m z doc).K = m.K := rfl
  have hcdc2 : ∀ z2, (addDoc m z doc).cluster_doc_count.getD z2 0
      = m.cluster_doc_count.getD z2 0 + (if z = z2 then 1 else 0) := by
    intro z2
    by_cases hzz : z = z2
    · subst hzz
      rw [if_pos rfl]
      simp only [addDoc]
      rw [getD_set_same _ _ _ _ (h.len_cdc ▸ hz)]
    · rw [if_neg hzz]
      simp only [addDoc]
      rw [getD_set_other _ _ _ _ _ hzz]
      ring
  have hcwc2 : ∀ z2, (addDoc m z doc).cluster_word_count.getD z2 0
      = m.cluster_word_count.getD z2 0 + (if z = z2 then (doc.length : ℤ) else 0) := by
    intro z2
    by_cases hzz : z = z2
    · subst hzz
      rw [if_pos rfl]
      simp only [addDoc]
      rw [getD_set_same _ _ _ _ (h.len_cwc ▸ hz)]
    · rw [if_neg hzz]
      simp only [addDoc]
      rw [getD_set_other _ _ _ _ _ hzz]
      ring
  have hcwd2 : ∀ z2, distAt (addDoc m z doc) z2
      = (if z = z2 then doc.foldl incWord (distAt m z2) else distAt m z2) := by
    intro z2
    by_cases hzz : z = z2
    · subst hzz
      rw [if_pos rfl]
      simp only [addDoc, distAt]
      rw [getD_set_same _ _ _ _ (h.len_cwd ▸ hz)]
    · rw [if_neg hzz]
      simp only [addDoc, distAt]
      rw [getD_set_other _ _ _ _ _ hzz]
  refine ⟨?_, ?_, ?_, ?_, ?_, ?_, ?_, ?_, ?_, ?_, ?_⟩
  · simp [h.len_labels]
  · intro l hl
    rw [hK2]
    rcases List.mem_append.mp hl with h1 | h1
    · exact h.labels_lt l h1
    · rw [List.mem_singleton.mp h1]
      exact hz
  · simpa [addDoc] using h.len_cdc
  · simpa [addDoc] using h.len_cwc
  · simpa [addDoc] using h.len_cwd
  · intro z2 hz2
    rw [hK2] at hz2
    rw [hcdc2 z2, aggF_append (fun _ => (1 : ℤ)) docs labels doc z z2 h.len_labels.symm,
      h.cdc_eq z2 hz2]
  · intro z2 hz2
    rw [hK2] at hz2
    rw [hcwc2 z2, aggF_append (fun d => (d.length : ℤ)) docs labels doc z z2 h.len_labels.symm,
      h.cwc_eq z2 hz2]
  · intro z2 hz2 w
    rw [hK2] at hz2
    rw [hcwd2 z2,
      aggF_append (fun d => (countTok d w : ℤ)) docs labels doc z z2 h.len_labels.symm,
      ← h.tok_eq z2 hz2 w]
    by_cases hzz : z = z2
    · rw [if_pos hzz, if_pos hzz, (incFold_spec doc (distAt m z2)).1 w]
    · rw [if_neg hzz, if_neg hzz]
      ring
  · intro z2 hz2
    rw [hK2] at hz2
    rw [hcwc2 z2, hcwd2 z2, h.cwc_sum z2 hz2]
    by_cases hzz : z = z2
    · rw [if_pos hzz, if_pos hzz, (incFold_spec doc (distAt m z2)).2.1]
    · rw [if_neg hzz, if_neg hzz]
      ring
  · intro z2 hz2
    rw [hK2] at hz2
    rw [hcwd2 z2]
    by_cases hzz : z = z2
    · rw [if_pos hzz]
      exact (incFold_spec doc (distAt m z2)).2.2.1 (h.keys_nodup z2 hz2)
    · rw [if_neg hzz]
      exact h.keys_nodup z2 hz2
  · intro z2 hz2
    rw [hK2] at hz2
    rw [hcwd2 z2]
    by_cases hzz : z = z2
    · rw [if_pos hzz]
      exact (incFold_spec doc (distAt m z2)).2.2.2 (h.vals_pos z2 hz2)
    · rw [if_neg hzz]
      exact h.vals_pos z2 hz2

/-- A fresh (zero-initialized) model is consistent with the empty labelled
corpus, whatever `number_docs` and `vocab_size` are set to. -/
theorem fresh_wf {m : Model} (hf : Fresh m) (D V : ℕ) :
    Wf [] [] { m with number_docs := D, vocab_size := V } := by
  obtain ⟨h1, h2, h3⟩ := hf
  refine ⟨rfl, by simp, ?_, ?_, ?_, ?_, ?_, ?_, ?_, ?_, ?_⟩
  · simp [h1]
  · simp [h2]
  · simp [h3]
  · intro z _
    simp only [h1]
    rw [getD_replicate]
    simp [aggF]
  · intro z _
    simp only [h2]
    rw [getD_replicate]
    simp [aggF]
  · intro z _ w
    simp only [distAt, h3]
    rw [getD_replicate]
    simp [getCount, aggF]
  · intro z _
    simp only [distAt, h2, h3]
    rw [getD_replicate, getD_replicate]
    simp [sumValues]
  · intro z _
    simp only [distAt, h3]
    rw [getD_replicate]
    simp
  · intro z _
    simp only [distAt, h3]
    rw [getD_replicate]
    simp

theorem initFold_K (K : ℕ) (rs : ℕ → ℕ) :
    ∀ (docs2 : List (List Token)) (acc : FitAcc),
    ((docs2.foldl (initStep K rs) acc)).model.K = acc.model.K := by
  intro docs2
  induction docs2 with
  | nil => intro acc; rfl
  | cons doc rest ih =>
    intro acc
    rw [List.foldl_cons, ih (initStep K rs acc doc)]
    rfl

theorem initFold_wf (K : ℕ) (rs : ℕ → ℕ) (hK : 0 < K) :
    ∀ (docs2 ds : List (List Token)) (acc : FitAcc),
    Wf ds acc.d_z acc.model → acc.model.K = K →
    Wf (ds ++ docs2) ((docs2.foldl (initStep K rs) acc)).d_z
      ((docs2.foldl (initStep K rs) acc)).model := by
  intro docs2
  induction docs2 with
  | nil =>
    intro ds acc h _
    simpa using h
  | cons doc rest ih =>
    intro ds acc h hKeq
    rw [List.foldl_cons, List.append_cons]
    have hz : sampleM (List.replicate K ((1 : ℝ) / (K : ℝ))) (rs acc.ctr) < acc.model.K := by
      rw [sampleM, List.length_replicate, hKeq]
      exact Nat.mod_lt _ hK
    have h2 := add_wf h doc hz
    exact ih (ds ++ [doc]) (initStep K rs acc doc) h2 hKeq

theorem initPass_wf (rs : ℕ → ℕ) (m : Model) (docs : List (List Token)) (V : ℕ)
    (hf : Fresh m) (hK : 0 < m.K) :
    Wf docs (initPass rs m docs V).d_z (initPass rs m docs V).model := by
  have hbase := fresh_wf hf docs.length V
  have h0 := initFold_wf m.K rs hK docs []
    ⟨{ m with number_docs := docs.length, vocab_size := V }, [], 0⟩ hbase rfl
  simpa [initPass] using h0

theorem initPass_K (rs : ℕ → ℕ) (m : Model) (docs : List (List Token)) (V : ℕ) :
    (initPass rs m docs V).model.K = m.K := by
  simpa [initPass] using
    initFold_K m.K rs docs ⟨{ m with number_docs := docs.length, vocab_size := V }, [], 0⟩

theorem sweepDocs_K (rs : ℕ → ℕ) :
    ∀ (suf : List (List Token)) (start : ℕ) (acc : FitAcc) (c : ℕ),
    (sweepDocs rs suf start (acc, c)).1.model.K = acc.model.K := by
  intro suf
  induction suf with
  | nil => intro start acc c; rfl
  | cons doc rest ih =>
    intro start acc c
    simp only [sweepDocs]
    rw [ih (start + 1) (reassignStep rs acc start doc).1 _]
    rfl

theorem sweepDocs_wf (rs : ℕ → ℕ) (docs : List (List Token)) :
    ∀ (suf : List (List Token)) (start : ℕ) (acc : FitAcc) (c : ℕ),
    start + suf.length ≤ docs.length →
    (∀ j, j < suf.length → suf.getD j [] = docs.getD (start + j) []) →
    Wf docs acc.d_z acc.model → 0 < acc.model.K →
    Wf docs (sweepDocs rs suf start (acc, c)).1.d_z
      (sweepDocs rs suf start (acc, c)).1.model := by
  intro suf
  induction suf with
  | nil =>
    intro start acc c _ _ h _
    exact h
  | cons doc rest ih =>
    intro start acc c hlen hj h hK
    have hdoc0 : doc = docs.getD start [] := by
      have h0 := hj 0 (by simp)
      simpa using h0
    have hstart : start < docs.length := by
      simp only [List.length_cons] at hlen
      omega
    have hznew : sampleM (score (removeDoc acc.model (acc.d_z.getD start 0) doc) doc)
        (rs acc.ctr) < acc.model.K := by
      rw [sampleM, score_length]
      have hKr : (removeDoc acc.model (acc.d_z.getD start 0) doc).K = acc.model.K := rfl
      rw [hKr]
      exact Nat.mod_lt _ hK
    have hstep : Wf docs
        (acc.d_z.set start
          (sampleM (score (removeDoc acc.model (acc.d_z.getD start 0) doc) doc) (rs acc.ctr)))
        (addDoc (removeDoc acc.model (acc.d_z.getD start 0) doc)
          (sampleM (score (removeDoc acc.model (acc.d_z.getD start 0) doc) doc) (rs acc.ctr))
          doc) := by
      have hs := step_wf h hstart hznew
      rw [← hdoc0] at hs
      exact hs
    have hj2 : ∀ j, j < rest.length → rest.getD j [] = docs.getD (start + 1 + j) [] := by
      intro j hjl
      have h1 := hj (j + 1) (by simpa using Nat.succ_lt_succ hjl)
      simp only [List.getD_cons_succ] at h1
      rw [h1]
      congr 1
      omega
    have hlen2 : start + 1 + rest.length ≤ docs.length := by
      simp only [List.length_cons] at hlen
      omega
    simp only [sweepDocs]
    exact ih (start + 1) (reassignStep rs acc start doc).1 _ hlen2 hj2 hstep hK

theorem sweepState_K (rs : ℕ → ℕ) (m : Model) (docs : List (List Token)) (V : ℕ) :
    ∀ t, (sweepState rs m docs V t).model.K = m.K := by
  intro t
  induction t with
  | zero => exact initPass_K rs m docs V
  | succ t ih =>
    simp only [sweepState, sweepPass]
    rw [sweepDocs_K rs docs 0 (sweepState rs m docs V t) 0]
    exact ih

theorem sweepState_wf (rs : ℕ → ℕ) (m : Model) (docs : List (List Token)) (V : ℕ)
    (hf : Fresh m) (hK : 0 < m.K) :
    ∀ t, Wf docs (sweepState rs m docs V t).d_z (sweepState rs m docs V t).model := by
  intro t
  induction t with
  | zero => exact initPass_wf rs m docs V hf hK
  | succ t ih =>
    simp only [sweepState, sweepPass]
    exact sweepDocs_wf rs docs docs 0 (sweepState rs m docs V t) 0 (by simp)
      (fun j hjl => by rw [Nat.zero_add]) ih
      (by rw [sweepState_K rs m docs V t]; exact hK)

theorem stepsState_wf (rs : ℕ → ℕ) (m : Model) (docs : List (List Token)) (V : ℕ)
    (hf : Fresh m) (hK : 0 < m.K) (t i : ℕ) :
    Wf docs (stepsState rs m docs V t i).d_z (stepsState rs m docs V t i).model := by
  have hbase := sweepState_wf rs m docs V hf hK t
  simp only [stepsState]
  refine sweepDocs_wf rs docs (docs.take i) 0 (sweepState rs m docs V t) 0 ?_ ?_ hbase ?_
  · simp only [Nat.zero_add, List.length_take]
    omega
  · intro j hjl
    rw [Nat.zero_add]
    refine getD_take docs i j [] ?_
    simp only [List.length_take] at hjl
    omega
  · rw [sweepState_K rs m docs V t]
    exact hK

/-- C1: for every corpus, every oracle outcome of the random draws, and
every point of the fit loop — after the initialization pass (`t = 0`,
`i = 0`), after every completed sweep, and after every per-document
remove-rescore-add reassignment step inside a sweep — the statistics
satisfy `sum(cluster_doc_count) = D`, `cluster_word_count[z] =
sum(cluster_word_distribution[z].values())` for every cluster `z`, and no
token maps to a non-positive count in any cluster's distribution (zero
entries having been deleted).  `stepsState rs m docs V t i` is the state
after `t` full sweeps and the first `i` reassignment steps of the next
sweep, starting from a freshly constructed model. -/
theorem claim_C1_invariant_preservation (rs : ℕ → ℕ) (m : Model)
    (docs : List (List Token)) (V t i : ℕ) (hf : Fresh m) (hK : 0 < m.K) :
    ClaimInv docs.length (stepsState rs m docs V t i).model :=
  wf_claimInv (stepsState_wf rs m docs V hf hK t i)

/-- Witness for C1 at a concrete corpus: one document, two clusters, one
full sweep plus one reassignment step. -/
theorem claim_C1_invariant_preservation_witness :
    Fresh (mkModel 2 1 1 30) ∧ 0 < (mkModel 2 1 1 30).K ∧
      ClaimInv 1 (stepsState (fun _ => 0) (mkModel 2 1 1 30) [["a"]] 1 1 1).model :=
  ⟨⟨rfl, rfl, rfl⟩, by norm_num [mkModel],
    claim_C1_invariant_preservation (fun _ => 0) (mkModel 2 1 1 30) [["a"]] 1 1 1
      ⟨rfl, rfl, rfl⟩ (by norm_num [mkModel])⟩

theorem getD_map_range {α : Type} (K z2 : ℕ) (f : ℕ → α) (d : α) (hz : z2 < K) :
    ((List.range K).map f).getD z2 d = f z2 := by
  rw [List.getD_eq_getElem _ _ (by simpa using hz)]
  simp

theorem sum_map_range' (n : ℕ) (g : ℕ → ℝ) :
    ((List.range' 1 n).map g).sum = ∑ j ∈ Finset.Icc 1 n, g j := by
  induction n with
  | zero => simp
  | succ k ih =>
    rw [List.range'_concat, List.map_append, List.sum_append, ih,
      Finset.sum_Icc_succ_top (by omega : 1 ≤ k + 1)]
    have hco : 1 + k = k + 1 := Nat.add_comm 1 k
    simp [hco]

theorem foldl_range'_eq_sum (n : ℕ) (g : ℕ → ℝ) :
    (List.range' 1 n).foldl (fun s j => s + g j) 0 = ∑ j ∈ Finset.Icc 1 n, g j := by
  rw [foldl_add_eq_sum_nat g (List.range' 1 n) 0, zero_add, sum_map_range']

theorem list_sum_map_div (l : List ℝ) (c : ℝ) :
    (l.map (fun x => x / c)).sum = l.sum / c := by
  induction l with
  | nil => simp
  | cons x rest ih =>
    simp only [List.map_cons, List.sum_cons, ih]
    ring

/-- C2: for every model state and document, the unnormalized vector built
by `score` holds, at each cluster `z < K`, exactly the weight
`exp(lN1 - lD1 + lN2 - lD2)` of the specification, where `lD1 =
log(D - 1 + K*alpha)`, `lN1 = log(cluster_doc_count[z] + alpha)`, `lN2`
sums `log(freq(z,w) + beta)` over the token occurrences of the document
(absent tokens contributing frequency 0 via `dict.get(word, 0)`), and
`lD2` sums `log(cluster_word_count[z] + V*beta + j - 1)` over
`j = 1 .. len(doc)`. -/
theorem claim_C2_score_formula (m : Model) (doc : List Token) (z : ℕ) (hz : z < m.K) :
    (scoreRaw m doc).getD z 0 = scoreWeightFormula m doc z := by
  rw [scoreRaw, getD_map_range m.K z _ 0 hz]
  simp only [scoreWeight, scoreWeightFormula]
  rw [foldl_add_eq_sum, foldl_range'_eq_sum, zero_add]

/-- Witness for C2 at a concrete model and document. -/
theorem claim_C2_score_formula_witness :
    (scoreRaw (fromData 1 1 1 1 1 [0] [0] [[]]) ["a"]).getD 0 0
      = scoreWeightFormula (fromData 1 1 1 1 1 [0] [0] [[]]) ["a"] 0 :=
  claim_C2_score_formula (fromData 1 1 1 1 1 [0] [0] [[]]) ["a"] 0 (by norm_num [fromData])

/-- C3: `score` always returns exactly `K` entries; when the unnormalized
weights have strictly positive sum each returned entry is the weight
divided by that sum (so the vector sums to 1); when the unnormalized sum
is `≤ 0` the guard divides by 1 and the unnormalized vector is returned
unchanged (in particular an all-zero vector stays all-zero). -/
theorem claim_C3_score_normalization (m : Model) (doc : List Token) :
    (score m doc).length = m.K ∧
    (0 < (scoreRaw m doc).sum →
      score m doc = (scoreRaw m doc).map (fun pp => pp / (scoreRaw m doc).sum) ∧
      (score m doc).sum = 1) ∧
    ((scoreRaw m doc).sum ≤ 0 → score m doc = scoreRaw m doc) := by
  refine ⟨score_length m doc, fun hpos => ⟨?_, ?_⟩, fun hnonpos => ?_⟩
  · simp only [score]
    rw [if_pos hpos]
  · simp only [score]
    rw [if_pos hpos, list_sum_map_div, div_self (ne_of_gt hpos)]
  · simp only [score]
    rw [if_neg (not_lt.mpr hnonpos)]
    simp

/-- Witness for C3: with `K = 0` the unnormalized vector is empty, its sum
`0` is not positive, and the vector is returned unchanged. -/
theorem claim_C3_score_normalization_witness :
    score (fromData 0 1 1 1 1 [] [] []) [] = scoreRaw (fromData 0 1 1 1 1 [] [] []) [] :=
  (claim_C3_score_normalization (fromData 0 1 1 1 1 [] [] []) []).2.2
    (by simp [scoreRaw, fromData])

theorem getD_mem_of_lt {α : Type} (l : List α) (t : ℕ) (d : α) (ht : t < l.length) :
    l.getD t d ∈ l := by
  rw [List.getD_eq_getElem _ _ ht]
  exact List.getElem_mem _

theorem le_all_getD_of_mem (l : List ℝ) (y b : ℝ) (hy : y ∈ l)
    (hb : ∀ t, t < l.length → l.getD t 0 ≤ b) : y ≤ b := by
  rcases List.mem_iff_getElem.mp hy with ⟨t, ht, rfl⟩
  have h2 := hb t ht
  rwa [List.getD_eq_getElem _ _ ht] at h2

/-- Complete characterization of the numpy argmax scan: either the running
best survives and bounds the whole suffix, or the result is the position of
the first maximum of the suffix, which strictly exceeds the running best
and everything before it. -/
theorem argmaxAux_spec (l : List ℝ) :
    ∀ (i bi : ℕ) (bv : ℝ), bi < i →
    (argmaxAux l i bi bv = bi ∧ ∀ x ∈ l, x ≤ bv) ∨
    (∃ j, j < l.length ∧ argmaxAux l i bi bv = i + j ∧ bv < l.getD j 0 ∧
      (∀ t, t < l.length → l.getD t 0 ≤ l.getD j 0) ∧
      (∀ t, t < j → l.getD t 0 < l.getD j 0)) := by
  induction l with
  | nil =>
    intro i bi bv _
    left
    exact ⟨rfl, by simp⟩
  | cons x rest ih =>
    intro i bi bv hbi
    by_cases hx : bv < x
    · rcases ih (i + 1) i x (Nat.lt_succ_self i) with ⟨heq, hall⟩ |
        ⟨j, hj, heq, hgt, hmax, hstrict⟩
      · right
        refine ⟨0, by simp, ?_, by simpa using hx, ?_, ?_⟩
        · simp only [argmaxAux, if_pos hx]
          rw [heq, Nat.add_zero]
        · intro t ht
          cases t with
          | zero => simp
          | succ t2 =>
            simp only [List.getD_cons_succ, List.getD_cons_zero]
            exact hall _ (getD_mem_of_lt rest t2 0 (by simpa using ht))
        · intro t ht
          exact absurd ht (by omega)
      · right
        refine ⟨j + 1, by simpa using Nat.succ_lt_succ hj, ?_, ?_, ?_, ?_⟩
        · simp only [argmaxAux, if_pos hx]
          rw [heq]
          omega
        · simp only [List.getD_cons_succ]
          exact lt_trans hx hgt
        · intro t ht
          cases t with
          | zero =>
            simp only [List.getD_cons_zero, List.getD_cons_succ]
            exact le_of_lt hgt
          | succ t2 =>
            simp only [List.getD_cons_succ]
            exact hmax t2 (by simpa using ht)
        · intro t ht
          cases t with
          | zero =>
            simp only [List.getD_cons_zero, List.getD_cons_succ]
            exact hgt
          | succ t2 =>
            simp only [List.getD_cons_succ]
            exact hstrict t2 (by omega)
    · rcases ih (i + 1) bi bv (by omega) with ⟨heq, hall⟩ |
        ⟨j, hj, heq, hgt, hmax, hstrict⟩
      · left
        refine ⟨by simp only [argmaxAux, if_neg hx]; exact heq, ?_⟩
        intro y hy
        rcases List.mem_cons.mp hy with h1 | h1
        · rw [h1]
          exact le_of_not_lt hx
        · exact hall y h1
      · right
        refine ⟨j + 1, by simpa using Nat.succ_lt_succ hj, ?_, ?_, ?_, ?_⟩
        · simp only [argmaxAux, if_neg hx]
          rw [heq]
          omega
        · simp only [List.getD_cons_succ]
          exact hgt
        · intro t ht
          cases t with
          | zero =>
            simp only [List.getD_cons_zero, List.getD_cons_succ]
            exact le_of_lt (lt_of_le_of_lt (le_of_not_lt hx) hgt)
          | succ t2 =>
            simp only [List.getD_cons_succ]
            exact hmax t2 (by simpa using ht)
        · intro t ht
          cases t with
          | zero =>
            simp only [List.getD_cons_zero, List.getD_cons_succ]
            exact lt_of_le_of_lt (le_of_not_lt hx) hgt
          | succ t2 =>
            simp only [List.getD_cons_succ]
            exact hstrict t2 (by omega)

theorem foldl_max_le_init (l : List ℝ) : ∀ a : ℝ, a ≤ l.foldl (fun u v => max u v) a := by
  induction l with
  | nil => intro a; simp
  | cons x rest ih =>
    intro a
    simp only [List.foldl_cons]
    exact le_trans (le_max_left a x) (ih (max a x))

theorem foldl_max_mem_le (l : List ℝ) :
    ∀ (a y : ℝ), y ∈ l → y ≤ l.foldl (fun u v => max u v) a := by
  induction l with
  | nil => intro a y hy; simp at hy
  | cons x rest ih =>
    intro a y hy
    simp only [List.foldl_cons]
    rcases List.mem_cons.mp hy with h1 | h1
    · rw [h1]
      exact le_trans (le_max_right a x) (foldl_max_le_init rest (max a x))
    · exact ih (max a x) y h1

theorem foldl_max_attained (l : List ℝ) :
    ∀ a : ℝ, l.foldl (fun u v => max u v) a = a ∨ l.foldl (fun u v => max u v) a ∈ l := by
  induction l with
  | nil => intro a; left; rfl
  | cons x rest ih =>
    intro a
    simp only [List.foldl_cons]
    rcases ih (max a x) with h1 | h1
    · rcases max_choice a x with h2 | h2
      · left
        rw [h1, h2]
      · right
        rw [h1, h2]
        exact List.mem_cons_self x rest
    · right
      exact List.mem_cons_of_mem x h1

/-- C7: `choose_best_label` returns the pair (first index attaining the
maximum of `score(doc)`, that maximum value): the returned index is in
range, the probability vector attains the returned value there, no entry
exceeds it, and every entry at a smaller index is strictly below it (the
lowest index wins ties).  The Python method only reads the statistics, so
the model is unchanged; the embedding is a pure function. -/
theorem claim_C7_choose_best_label (m : Model) (doc : List Token) (hK : 0 < m.K) :
    (chooseBestLabel m doc).1 < (score m doc).length ∧
    (score m doc).getD (chooseBestLabel m doc).1 0 = (chooseBestLabel m doc).2 ∧
    (∀ j, j < (score m doc).length →
      (score m doc).getD j 0 ≤ (chooseBestLabel m doc).2) ∧
    (∀ j, j < (chooseBestLabel m doc).1 →
      (score m doc).getD j 0 < (chooseBestLabel m doc).2) := by
  have hlen : (score m doc).length = m.K := score_length m doc
  obtain ⟨x, rest, hp⟩ : ∃ x rest, score m doc = x :: rest := by
    cases hsc : score m doc with
    | nil =>
      rw [hsc] at hlen
      simp only [List.length_nil] at hlen
      omega
    | cons x rest => exact ⟨x, rest, rfl⟩
  simp only [chooseBestLabel, hp, argmaxList, listMax]
  rcases argmaxAux_spec rest 1 0 x (by omega) with ⟨heq, hall⟩ |
    ⟨j, hj, heq, hgt, hmax, hstrict⟩
  · have hlm : rest.foldl (fun u v => max u v) x = x := by
      refine le_antisymm ?_ (foldl_max_le_init rest x)
      rcases foldl_max_attained rest x with h1 | h1
      · rw [h1]
      · exact hall _ h1
    rw [heq, hlm]
    refine ⟨by simp, by simp, ?_, ?_⟩
    · intro t ht
      cases t with
      | zero => simp
      | succ t2 =>
        simp only [List.getD_cons_succ]
        exact hall _ (getD_mem_of_lt rest t2 0 (by simpa using ht))
    · intro t ht
      exact absurd ht (by omega)
  · have hlm : rest.foldl (fun u v => max u v) x = rest.getD j 0 := by
      refine le_antisymm ?_ (foldl_max_mem_le rest x _ (getD_mem_of_lt rest j 0 hj))
      rcases foldl_max_attained rest x with h1 | h1
      · rw [h1]
        exact le_of_lt hgt
      · exact le_all_getD_of_mem rest _ _ h1 hmax
    rw [heq, hlm]
    have h1j : 1 + j = j + 1 := Nat.add_comm 1 j
    refine ⟨?_, ?_, ?_, ?_⟩
    · simp only [List.length_cons]
      omega
    · rw [h1j]
      simp only [List.getD_cons_succ]
    · intro t ht
      cases t with
      | zero =>
        simp only [List.getD_cons_zero]
        exact le_of_lt hgt
      | succ t2 =>
        simp only [List.getD_cons_succ]
        exact hmax t2 (by simpa using ht)
    · intro t ht
      cases t with
      | zero =>
        simp only [List.getD_cons_zero]
        exact hgt
      | succ t2 =>
        simp only [List.getD_cons_succ]
        exact hstrict t2 (by omega)

/-- Witness for C7 at a concrete model (one cluster). -/
theorem claim_C7_choose_best_label_witness :
    (chooseBestLabel (fromData 1 1 1 1 1 [0] [0] [[]]) ["a"]).1
        < (score (fromData 1 1 1 1 1 [0] [0] [[]]) ["a"]).length ∧
      (score (fromData 1 1 1 1 1 [0] [0] [[]]) ["a"]).getD
          (chooseBestLabel (fromData 1 1 1 1 1 [0] [0] [[]]) ["a"]).1 0
        = (chooseBestLabel (fromData 1 1 1 1 1 [0] [0] [[]]) ["a"]).2 ∧
      (∀ j, j < (score (fromData 1 1 1 1 1 [0] [0] [[]]) ["a"]).length →
        (score (fromData 1 1 1 1 1 [0] [0] [[]]) ["a"]).getD j 0
          ≤ (chooseBestLabel (fromData 1 1 1 1 1 [0] [0] [[]]) ["a"]).2) ∧
      (∀ j, j < (chooseBestLabel (fromData 1 1 1 1 1 [0] [0] [[]]) ["a"]).1 →
        (score (fromData 1 1 1 1 1 [0] [0] [[]]) ["a"]).getD j 0
          < (chooseBestLabel (fromData 1 1 1 1 1 [0] [0] [[]]) ["a"]).2) :=
  claim_C7_choose_best_label (fromData 1 1 1 1 1 [0] [0] [[]]) ["a"]
    (by norm_num [fromData])

/-- Full characterization of the sweep loop of `fit`: starting at sweep
index `t` with the matching carried `cluster_count`, the final state is the
break-free trace at the number of executed sweeps, at most `n` sweeps run,
no sweep before the last one satisfied the break condition, and if the
budget was not exhausted the last executed sweep satisfied it. -/
theorem sweepLoop_spec_aux (rs : ℕ → ℕ) (m : Model) (docs : List (List Token)) (V : ℕ) :
    ∀ (n t cc : ℕ) (acc : FitAcc), cc = ccAt rs m docs V t →
    acc = sweepState rs m docs V t →
    (sweepLoop rs docs n t cc acc).1
        = sweepState rs m docs V (t + (sweepLoop rs docs n t cc acc).2) ∧
    (sweepLoop rs docs n t cc acc).2 ≤ n ∧
    (∀ u, u + 1 < (sweepLoop rs docs n t cc acc).2 → ¬ breakCondAt rs m docs V (t + u)) ∧
    ((sweepLoop rs docs n t cc acc).2 < n →
      1 ≤ (sweepLoop rs docs n t cc acc).2 ∧
      breakCondAt rs m docs V (t + (sweepLoop rs docs n t cc acc).2 - 1)) := by
  intro n
  induction n with
  | zero =>
    intro t cc acc hcc hacc
    subst hcc hacc
    simp only [sweepLoop]
    refine ⟨by rw [Nat.add_zero], le_refl 0, ?_, ?_⟩
    · intro u hu
      exact absurd hu (by omega)
    · intro h0
      exact absurd h0 (by omega)
  | succ n ih =>
    intro t cc acc hcc hacc
    subst hcc hacc
    have hccNew : countPositive
        (sweepPass rs docs (sweepState rs m docs V t)).1.model.cluster_doc_count
        = ccAt rs m docs V (t + 1) := rfl
    have hpass : (sweepPass rs docs (sweepState rs m docs V t)).1
        = sweepState rs m docs V (t + 1) := rfl
    simp only [sweepLoop]
    rw [hccNew, hpass]
    by_cases hbr : (sweepPass rs docs (sweepState rs m docs V t)).2 = 0 ∧
        ccAt rs m docs V (t + 1) = ccAt rs m docs V t ∧ 25 < t
    · rw [if_pos hbr]
      refine ⟨rfl, by omega, ?_, ?_⟩
      · intro u hu
        exact absurd hu (by omega)
      · intro _
        refine ⟨le_refl 1, ?_⟩
        have hidx : t + 1 - 1 = t := by omega
        rw [hidx]
        exact hbr
    · rw [if_neg hbr]
      have hrec := ih (t + 1) (ccAt rs m docs V (t + 1)) (sweepState rs m docs V (t + 1))
        rfl rfl
      refine ⟨?_, ?_, ?_, ?_⟩
      · show (sweepLoop rs docs n (t + 1) (ccAt rs m docs V (t + 1))
            (sweepState rs m docs V (t + 1))).1 = _
        rw [hrec.1]
        congr 1
        omega
      · show (sweepLoop rs docs n (t + 1) (ccAt rs m docs V (t + 1))
            (sweepState rs m docs V (t + 1))).2 + 1 ≤ n + 1
        have h2 := hrec.2.1
        omega
      · intro u hu
        cases u with
        | zero =>
          rw [Nat.add_zero]
          exact hbr
        | succ u2 =>
          have h3 := hrec.2.2.1 u2 (by
            show u2 + 1 < (sweepLoop rs docs n (t + 1) (ccAt rs m docs V (t + 1))
              (sweepState rs m docs V (t + 1))).2
            omega)
          have hidx : t + 1 + u2 = t + (u2 + 1) := by omega
          rwa [hidx] at h3
      · intro hlt
        have hlt2 : (sweepLoop rs docs n (t + 1) (ccAt rs m docs V (t + 1))
            (sweepState rs m docs V (t + 1))).2 < n := by omega
        have h4 := hrec.2.2.2 hlt2
        refine ⟨by omega, ?_⟩
        have hidx : t + 1 + (sweepLoop rs docs n (t + 1) (ccAt rs m docs V (t + 1))
            (sweepState rs m docs V (t + 1))).2 - 1
            = t + ((sweepLoop rs docs n (t + 1) (ccAt rs m docs V (t + 1))
              (sweepState rs m docs V (t + 1))).2 + 1) - 1 := by omega
        rw [← hidx]
        exact h4.2

/-- C4: the sweep loop of `fit` executes at most `n_iters` sweeps; it stops
before exhausting `n_iters` exactly when the convergence condition
(`total_transfers == 0`, populated-cluster count unchanged from before the
sweep, and 0-based sweep index `> 25`) held at the end of the last executed
sweep and at no earlier sweep; consequently an early stop implies at least
27 executed sweeps (the earliest breaking sweep has index 26), so `fit`
never stops early before sweep index 26 — fewer sweeps run only when
`n_iters` itself is smaller. -/
theorem claim_C4_convergence_rule (rs : ℕ → ℕ) (m : Model)
    (docs : List (List Token)) (V : ℕ) :
    fitSweeps rs m docs V ≤ m.n_iters ∧
    (∀ t, t + 1 < fitSweeps rs m docs V → ¬ breakCondAt rs m docs V t) ∧
    (fitSweeps rs m docs V < m.n_iters →
      breakCondAt rs m docs V (fitSweeps rs m docs V - 1)) ∧
    (fitSweeps rs m docs V < m.n_iters → 27 ≤ fitSweeps rs m docs V) := by
  have hspec := sweepLoop_spec_aux rs m docs V m.n_iters 0 m.K (initPass rs m docs V)
    rfl rfl
  have hfs : fitSweeps rs m docs V
      = (sweepLoop rs docs m.n_iters 0 m.K (initPass rs m docs V)).2 := rfl
  refine ⟨?_, ?_, ?_, ?_⟩
  · rw [hfs]
    exact hspec.2.1
  · intro t ht
    rw [hfs] at ht
    have h2 := hspec.2.2.1 t ht
    rwa [Nat.zero_add] at h2
  · intro hlt
    rw [hfs] at hlt ⊢
    have h2 := (hspec.2.2.2 hlt).2
    rwa [Nat.zero_add] at h2
  · intro hlt
    rw [hfs] at hlt ⊢
    have h1 := (hspec.2.2.2 hlt).1
    have h2 := (hspec.2.2.2 hlt).2.2.2
    omega

/-- C5: a model reconstituted by `from_data` from the state tuple of any
model behaves identically to it on `score`, `choose_best_label` and
`get_top_words` for every input (none of these reads `n_iters`, the one
field `from_data` does not copy). -/
theorem claim_C5_from_data_equivalence (m : Model) :
    (∀ doc, score (fromData m.K m.alpha m.beta m.number_docs m.vocab_size
        m.cluster_doc_count m.cluster_word_count m.cluster_word_distribution) doc
      = score m doc) ∧
    (∀ doc, chooseBestLabel (fromData m.K m.alpha m.beta m.number_docs m.vocab_size
        m.cluster_doc_count m.cluster_word_count m.cluster_word_distribution) doc
      = chooseBestLabel m doc) ∧
    (∀ (k_words : ℕ) (sep : String),
      getTopWords (fromData m.K m.alpha m.beta m.number_docs m.vocab_size
        m.cluster_doc_count m.cluster_word_count m.cluster_word_distribution) k_words sep
      = getTopWords m k_words sep) := by
  cases m with
  | mk K alpha beta n_iters number_docs vocab_size cdc cwc cwd =>
    exact ⟨fun doc => rfl, fun doc => rfl, fun k_words sep => rfl⟩

/-- C8: with the randomness made explicit as an oracle stream, `fit` is a
pure function: two runs on identical configuration, statistics, corpus,
vocabulary size and random draws return identical label sequences and
identical final statistics. -/
theorem claim_C8_determinism (m1 m2 : Model) (docs1 docs2 : List (List Token))
    (V1 V2 : ℕ) (rs1 rs2 : ℕ → ℕ)
    (hm : m1 = m2) (hd : docs1 = docs2) (hV : V1 = V2) (hr : rs1 = rs2) :
    (fit rs1 m1 docs1 V1).2 = (fit rs2 m2 docs2 V2).2 ∧
    (fit rs1 m1 docs1 V1).1 = (fit rs2 m2 docs2 V2).1 := by
  subst hm
  subst hd
  subst hV
  subst hr
  exact ⟨rfl, rfl⟩

/-- Witness for C8 at a concrete corpus and seed stream. -/
theorem claim_C8_determinism_witness :
    (fit (fun n => n) (mkModel 2 1 1 3) [["a"], ["b"]] 2).2
        = (fit (fun n => n) (mkModel 2 1 1 3) [["a"], ["b"]] 2).2 ∧
      (fit (fun n => n) (mkModel 2 1 1 3) [["a"], ["b"]] 2).1
        = (fit (fun n => n) (mkModel 2 1 1 3) [["a"], ["b"]] 2).1 :=
  claim_C8_determinism (mkModel 2 1 1 3) (mkModel 2 1 1 3) [["a"], ["b"]] [["a"], ["b"]]
    2 2 (fun n => n) (fun n => n) rfl rfl rfl rfl

theorem getD_label_lt {K : ℕ} (l : List ℕ) (hK : 0 < K)
    (hall : ∀ x ∈ l, x < K) (i : ℕ) : l.getD i 0 < K := by
  by_cases hi : i < l.length
  · exact hall _ (getD_mem_of_lt l i 0 hi)
  · rw [List.getD_eq_default _ _ (Nat.le_of_not_lt hi)]
    exact hK

theorem initFold_sum (K : ℕ) (rs : ℕ → ℕ) (hK : 0 < K) :
    ∀ (docs2 : List (List Token)) (acc : FitAcc), acc.model.K = K → AccOk acc →
    ((docs2.foldl (initStep K rs) acc).model.cluster_doc_count.sum
      = acc.model.cluster_doc_count.sum + (docs2.length : ℤ)) ∧
    AccOk (docs2.foldl (initStep K rs) acc) := by
  intro docs2
  induction docs2 with
  | nil =>
    intro acc _ hok
    exact ⟨by simp, hok⟩
  | cons doc rest ih =>
    intro acc hKeq hok
    rw [List.foldl_cons]
    have hz : sampleM (List.replicate K ((1 : ℝ) / (K : ℝ))) (rs acc.ctr) < K := by
      rw [sampleM, List.length_replicate]
      exact Nat.mod_lt _ hK
    have hzlen : sampleM (List.replicate K ((1 : ℝ) / (K : ℝ))) (rs acc.ctr)
        < acc.model.cluster_doc_count.length := by
      rw [hok.1, hKeq]
      exact hz
    have hstep_sum : (initStep K rs acc doc).model.cluster_doc_count.sum
        = acc.model.cluster_doc_count.sum + 1 := by
      simp only [initStep, addDoc]
      rw [sum_set_int _ _ _ hzlen]
      ring
    have hstep_ok : AccOk (initStep K rs acc doc) := by
      constructor
      · simpa [initStep, addDoc] using hok.1
      · intro l hl
        simp only [initStep] at hl
        have hKstep : (initStep K rs acc doc).model.K = K := hKeq
        rw [hKstep]
        rcases List.mem_append.mp hl with h1 | h1
        · rw [← hKeq]
          exact hok.2 l h1
        · rw [List.mem_singleton.mp h1]
          exact hz
    have hrec := ih (initStep K rs acc doc) hKeq hstep_ok
    refine ⟨?_, hrec.2⟩
    rw [hrec.1, hstep_sum]
    simp only [List.length_cons]
    push_cast
    ring

theorem reassignStep_sum (rs : ℕ → ℕ) (acc : FitAcc) (i : ℕ) (doc : List Token)
    (hok : AccOk acc) (hK : 0 < acc.model.K) :
    ((reassignStep rs acc i doc).1.model.cluster_doc_count.sum
      = acc.model.cluster_doc_count.sum) ∧
    AccOk (reassignStep rs acc i doc).1 := by
  have hzo : acc.d_z.getD i 0 < acc.model.K := getD_label_lt acc.d_z hK hok.2 i
  have hzolen : acc.d_z.getD i 0 < acc.model.cluster_doc_count.length := by
    rw [hok.1]
    exact hzo
  have hzn : sampleM (score (removeDoc acc.model (acc.d_z.getD i 0) doc) doc) (rs acc.ctr)
      < acc.model.K := by
    rw [sampleM, score_length]
    exact Nat.mod_lt _ hK
  have hznlen : sampleM (score (removeDoc acc.model (acc.d_z.getD i 0) doc) doc) (rs acc.ctr)
      < (acc.model.cluster_doc_count.set (acc.d_z.getD i 0)
          (acc.model.cluster_doc_count.getD (acc.d_z.getD i 0) 0 - 1)).length := by
    rw [List.length_set, hok.1]
    exact hzn
  have e1 : ∀ (M : Model) (z : ℕ), (addDoc M z doc).cluster_doc_count
      = M.cluster_doc_count.set z (M.cluster_doc_count.getD z 0 + 1) := fun M z => rfl
  have e2 : (removeDoc acc.model (acc.d_z.getD i 0) doc).cluster_doc_count
      = acc.model.cluster_doc_count.set (acc.d_z.getD i 0)
          (acc.model.cluster_doc_count.getD (acc.d_z.getD i 0) 0 - 1) := rfl
  constructor
  · simp only [reassignStep]
    rw [e1, e2, sum_set_int _ _ _ hznlen, sum_set_int _ _ _ hzolen]
    ring
  · constructor
    · simp only [reassignStep]
      rw [e1, e2, List.length_set, List.length_set]
      exact hok.1
    · intro l hl
      simp only [reassignStep] at hl
      have hKstep : (reassignStep rs acc i doc).1.model.K = acc.model.K := rfl
      rw [hKstep]
      rcases List.mem_or_eq_of_mem_set hl with h1 | h1
      · exact hok.2 l h1
      · rw [h1]
        exact hzn

theorem sweepDocs_sum_aux (rs : ℕ → ℕ) :
    ∀ (suf : List (List Token)) (start : ℕ) (acc : FitAcc) (c : ℕ),
    AccOk acc → 0 < acc.model.K →
    ((sweepDocs rs suf start (acc, c)).1.model.cluster_doc_count.sum
      = acc.model.cluster_doc_count.sum) ∧
    AccOk (sweepDocs rs suf start (acc, c)).1 := by
  intro suf
  induction suf with
  | nil =>
    intro start acc c hok _
    exact ⟨rfl, hok⟩
  | cons doc rest ih =>
    intro start acc c hok hK
    have hstep := reassignStep_sum rs acc start doc hok hK
    have hKstep : (reassignStep rs acc start doc).1.model.K = acc.model.K := rfl
    have hrec := ih (start + 1) (reassignStep rs acc start doc).1
      (c + if (reassignStep rs acc start doc).2 then 1 else 0) hstep.2
      (by rw [hKstep]; exact hK)
    simp only [sweepDocs]
    exact ⟨hrec.1.trans hstep.1, hrec.2⟩

theorem initPass_sum (rs : ℕ → ℕ) (m : Model) (docs : List (List Token)) (V : ℕ)
    (hK : 0 < m.K) (hlen : m.cluster_doc_count.length = m.K) :
    ((initPass rs m docs V).model.cluster_doc_count.sum
      = m.cluster_doc_count.sum + (docs.length : ℤ)) ∧
    AccOk (initPass rs m docs V) := by
  have hbase : AccOk ⟨{ m with number_docs := docs.length, vocab_size := V }, [], 0⟩ :=
    ⟨hlen, by simp⟩
  have h0 := initFold_sum m.K rs hK docs
    ⟨{ m with number_docs := docs.length, vocab_size := V }, [], 0⟩ rfl hbase
  simpa [initPass] using h0

theorem sweepState_sum (rs : ℕ → ℕ) (m : Model) (docs : List (List Token)) (V : ℕ)
    (hK : 0 < m.K) (hlen : m.cluster_doc_count.length = m.K) :
    ∀ t, ((sweepState rs m docs V t).model.cluster_doc_count.sum
      = m.cluster_doc_count.sum + (docs.length : ℤ)) ∧
    AccOk (sweepState rs m docs V t) := by
  intro t
  induction t with
  | zero => exact initPass_sum rs m docs V hK hlen
  | succ t ih =>
    have hKt : (sweepState rs m docs V t).model.K = m.K := sweepState_K rs m docs V t
    have h2 := sweepDocs_sum_aux rs docs 0 (sweepState rs m docs V t) 0 ih.2
      (by rw [hKt]; exact hK)
    constructor
    · show (sweepPass rs docs (sweepState rs m docs V t)).1.model.cluster_doc_count.sum = _
      rw [show (sweepPass rs docs (sweepState rs m docs V t)).1
          = (sweepDocs rs docs 0 (sweepState rs m docs V t, 0)).1 from rfl]
      rw [h2.1, ih.1]
    · show AccOk (sweepPass rs docs (sweepState rs m docs V t)).1
      exact h2.2

theorem fit_sum (rs : ℕ → ℕ) (m : Model) (docs : List (List Token)) (V : ℕ)
    (hK : 0 < m.K) (hlen : m.cluster_doc_count.length = m.K) :
    (fit rs m docs V).1.cluster_doc_count.sum
      = m.cluster_doc_count.sum + (docs.length : ℤ) ∧
    (fit rs m docs V).1.K = m.K ∧
    (fit rs m docs V).1.cluster_doc_count.length = m.K := by
  have hspec := (sweepLoop_spec_aux rs m docs V m.n_iters 0 m.K
    (initPass rs m docs V) rfl rfl).1
  have hfit : (fit rs m docs V).1 = (sweepState rs m docs V
      (0 + (sweepLoop rs docs m.n_iters 0 m.K (initPass rs m docs V)).2)).model := by
    show (sweepLoop rs docs m.n_iters 0 m.K (initPass rs m docs V)).1.model = _
    rw [hspec]
  rw [hfit]
  have hsum := sweepState_sum rs m docs V hK hlen
    (0 + (sweepLoop rs docs m.n_iters 0 m.K (initPass rs m docs V)).2)
  refine ⟨hsum.1, ?_, ?_⟩
  · exact sweepState_K rs m docs V _
  · exact hsum.2.1.trans (sweepState_K rs m docs V _)

/-- C10: `fit` never resets the statistics at entry: starting from a fresh
model the first fit leaves `sum(cluster_doc_count) = D`, but calling `fit`
again on the same instance adds the new initialization increments on top,
leaving `sum = D + D2`; so when the first corpus is nonempty and the second
has the same size, the invariant `sum(cluster_doc_count) = number_docs` is
violated after the second fit. -/
theorem claim_C10_fit_does_not_reset (rs1 rs2 : ℕ → ℕ) (m : Model)
    (docs docs2 : List (List Token)) (V V2 : ℕ) (hf : Fresh m) (hK : 0 < m.K) :
    (fit rs1 m docs V).1.cluster_doc_count.sum = (docs.length : ℤ) ∧
    (fit rs2 (fit rs1 m docs V).1 docs2 V2).1.cluster_doc_count.sum
      = (docs.length : ℤ) + (docs2.length : ℤ) ∧
    (0 < docs.length → docs2.length = docs.length →
      (fit rs2 (fit rs1 m docs V).1 docs2 V2).1.cluster_doc_count.sum
        ≠ (docs2.length : ℤ)) := by
  have hlen : m.cluster_doc_count.length = m.K := by
    rw [hf.1, List.length_replicate]
  have hsum0 : m.cluster_doc_count.sum = 0 := by
    rw [hf.1]
    simp
  have h1 := fit_sum rs1 m docs V hK hlen
  have hsum1 : (fit rs1 m docs V).1.cluster_doc_count.sum = (docs.length : ℤ) := by
    rw [h1.1, hsum0, zero_add]
  have h2 := fit_sum rs2 (fit rs1 m docs V).1 docs2 V2
    (by rw [h1.2.1]; exact hK) (h1.2.2.trans h1.2.1.symm)
  have hsum2 : (fit rs2 (fit rs1 m docs V).1 docs2 V2).1.cluster_doc_count.sum
      = (docs.length : ℤ) + (docs2.length : ℤ) := by
    rw [h2.1, hsum1]
  refine ⟨hsum1, hsum2, ?_⟩
  intro hD _
  rw [hsum2]
  intro heq
  omega

/-- Witness for C10: a one-document corpus fit twice on the same instance
ends with document-count sum 2, violating `sum = number_docs = 1`. -/
theorem claim_C10_fit_does_not_reset_witness :
    (fit (fun _ => 0) (mkModel 1 1 1 2) [["a"]] 1).1.cluster_doc_count.sum
        = (([["a"]] : List (List Token)).length : ℤ) ∧
      ((fit (fun _ => 0) (fit (fun _ => 0) (mkModel 1 1 1 2) [["a"]] 1).1
          [["a"]] 1).1).cluster_doc_count.sum
        = (([["a"]] : List (List Token)).length : ℤ)
          + (([["a"]] : List (List Token)).length : ℤ) ∧
      (0 < ([["a"]] : List (List Token)).length →
        ([["a"]] : List (List Token)).length = ([["a"]] : List (List Token)).length →
        ((fit (fun _ => 0) (fit (fun _ => 0) (mkModel 1 1 1 2) [["a"]] 1).1
            [["a"]] 1).1).cluster_doc_count.sum
          ≠ (([["a"]] : List (List Token)).length : ℤ)) :=
  claim_C10_fit_does_not_reset (fun _ => 0) (fun _ => 0) (mkModel 1 1 1 2)
    [["a"]] [["a"]] 1 1 ⟨rfl, rfl, rfl⟩ (by norm_num [mkModel])

theorem dictLookup_insert_self (d : List (ℕ × String)) (k : ℕ) (v : String) :
    dictLookup (dictInsert d k v) k = some v := by
  induction d with
  | nil => simp [dictInsert, dictLookup]
  | cons kv rest ih =>
    obtain ⟨k2, v2⟩ := kv
    by_cases hk : k2 = k
    · simp [dictInsert, dictLookup, hk]
    · simp [dictInsert, dictLookup, hk, ih]

theorem dictLookup_insert_other (d : List (ℕ × String)) (k k2 : ℕ) (v : String)
    (h : k ≠ k2) :
    dictLookup (dictInsert d k v) k2 = dictLookup d k2 := by
  induction d with
  | nil => simp [dictInsert, dictLookup, h]
  | cons kv rest ih =>
    obtain ⟨k3, v3⟩ := kv
    by_cases hk : k3 = k
    · subst hk
      simp [dictInsert, dictLookup, h]
    · by_cases hk2 : k3 = k2
      · subst hk2
        simp [dictInsert, dictLookup, hk]
      · simp [dictInsert, dictLookup, hk, hk2, ih]

theorem dict_fold_lookup (f : ℕ → String) :
    ∀ (idxs : List ℕ) (acc : List (ℕ × String)) (z : ℕ), idxs.Nodup →
    dictLookup (idxs.foldl (fun a c => dictInsert a c (f c)) acc) z
      = if z ∈ idxs then some (f z) else dictLookup acc z := by
  intro idxs
  induction idxs with
  | nil =>
    intro acc z _
    simp
  | cons c rest ih =>
    intro acc z hnd
    simp only [List.nodup_cons] at hnd
    rw [List.foldl_cons, ih (dictInsert acc c (f c)) z hnd.2]
    by_cases hzr : z ∈ rest
    · rw [if_pos hzr, if_pos (List.mem_cons_of_mem c hzr)]
    · rw [if_neg hzr]
      by_cases hzc : z = c
      · subst hzc
        rw [if_pos (List.mem_cons_self z rest), dictLookup_insert_self]
      · rw [if_neg (by simp [hzc, hzr]), dictLookup_insert_other acc c z (f c)
          (fun h => hzc h.symm)]

theorem enumIdx_map_fst : ∀ (l : List ℤ) (i : ℕ),
    (enumIdx l i).map (fun p => p.1) = List.range' i l.length := by
  intro l
  induction l with
  | nil => intro i; simp [enumIdx]
  | cons v rest ih =>
    intro i
    simp only [enumIdx, List.map_cons, List.length_cons, List.range'_succ]
    rw [ih (i + 1)]

theorem topIndex_perm (m : Model) (hlen : m.cluster_doc_count.length = m.K) :
    (topIndex m).Perm (List.range m.K) := by
  have hperm := (List.perm_insertionSort byAsc (enumIdx m.cluster_doc_count 0)).map
    (fun p => p.1)
  rw [enumIdx_map_fst m.cluster_doc_count 0, hlen, ← List.range_eq_range'] at hperm
  have hidxlen : ((List.insertionSort byAsc (enumIdx m.cluster_doc_count 0)).map
      (fun p => p.1)).length = m.K := by
    rw [hperm.length_eq, List.length_range]
  have ht : topIndex m = ((List.insertionSort byAsc
      (enumIdx m.cluster_doc_count 0)).map (fun p => p.1)).reverse := by
    simp only [topIndex]
    by_cases hK0 : m.K = 0
    · rw [if_pos hK0]
    · rw [if_neg hK0, hidxlen, Nat.sub_self, List.drop_zero]
  rw [ht]
  exact (List.reverse_perm _).trans hperm

/-- C6: under the structural agreement `len(cluster_doc_count) = K`, the
mapping returned by `get_top_words` has exactly the cluster indices
`0 .. K-1` as keys; each cluster `z` maps to the separator-join of the
first `k_words` token names of the stably sorted item list of its
distribution; that sorted list is a permutation of the items ordered by
descending count, at most `k_words` entries are taken; and a cluster
with an empty distribution maps to the empty string. -/
theorem claim_C6_get_top_words (m : Model) (k_words : ℕ) (sep : String)
    (hlen : m.cluster_doc_count.length = m.K) :
    (∀ z, (dictLookup (getTopWords m k_words sep) z).isSome ↔ z < m.K) ∧
    (∀ z, z < m.K →
      dictLookup (getTopWords m k_words sep) z
        = some (String.intercalate sep
            (((List.insertionSort byCountDesc (distAt m z)).take k_words).map
              (fun wc => wc.1)))) ∧
    (∀ z, (List.insertionSort byCountDesc (distAt m z)).Perm (distAt m z) ∧
      (List.insertionSort byCountDesc (distAt m z)).Sorted byCountDesc ∧
      ((List.insertionSort byCountDesc (distAt m z)).take k_words).length ≤ k_words) ∧
    (∀ z, z < m.K → distAt m z = [] →
      dictLookup (getTopWords m k_words sep) z = some "") := by
  have htop := topIndex_perm m hlen
  have hnd : (topIndex m).Nodup := htop.symm.nodup (List.nodup_range m.K)
  have hmem : ∀ z, z ∈ topIndex m ↔ z < m.K := by
    intro z
    rw [htop.mem_iff, List.mem_range]
  have hfold : ∀ z, dictLookup (getTopWords m k_words sep) z
      = if z ∈ topIndex m then
          some (String.intercalate sep
            (((List.insertionSort byCountDesc (distAt m z)).take k_words).map
              (fun wc => wc.1)))
        else none := by
    intro z
    have h0 := dict_fold_lookup
      (fun cluster => String.intercalate sep
        (((List.insertionSort byCountDesc (distAt m cluster)).take k_words).map
          (fun wc => wc.1)))
      (topIndex m) [] z hnd
    simpa [getTopWords, dictLookup] using h0
  refine ⟨?_, ?_, ?_, ?_⟩
  · intro z
    rw [hfold z]
    by_cases hz : z ∈ topIndex m
    · rw [if_pos hz]
      simpa using (hmem z).mp hz
    · rw [if_neg hz]
      constructor
      · intro hs
        simp at hs
      · intro hzK
        exact absurd ((hmem z).mpr hzK) hz
  · intro z hz
    rw [hfold z, if_pos ((hmem z).mpr hz)]
  · intro z
    refine ⟨List.perm_insertionSort byCountDesc (distAt m z),
      List.sorted_insertionSort byCountDesc (distAt m z), ?_⟩
    rw [List.length_take]
    exact min_le_left _ _
  · intro z hz hempty
    rw [hfold z, if_pos ((hmem z).mpr hz), hempty]
    simp [String.intercalate]

/-- Witness for C6 at a concrete two-cluster model. -/
theorem claim_C6_get_top_words_witness :
    (∀ z, (dictLookup (getTopWords (fromData 2 1 1 2 2 [1, 1] [1, 2]
        [[("a", 1)], [("b", 1), ("c", 1)]]) 5 " ") z).isSome ↔ z < 2) ∧
      (∀ z, z < 2 →
        dictLookup (getTopWords (fromData 2 1 1 2 2 [1, 1] [1, 2]
            [[("a", 1)], [("b", 1), ("c", 1)]]) 5 " ") z
          = some (String.intercalate " "
              (((List.insertionSort byCountDesc (distAt (fromData 2 1 1 2 2 [1, 1] [1, 2]
                  [[("a", 1)], [("b", 1), ("c", 1)]]) z)).take 5).map (fun wc => wc.1)))) ∧
      (∀ z, (List.insertionSort byCountDesc (distAt (fromData 2 1 1 2 2 [1, 1] [1, 2]
          [[("a", 1)], [("b", 1), ("c", 1)]]) z)).Perm (distAt (fromData 2 1 1 2 2 [1, 1]
            [1, 2] [[("a", 1)], [("b", 1), ("c", 1)]]) z) ∧
        (List.insertionSort byCountDesc (distAt (fromData 2 1 1 2 2 [1, 1] [1, 2]
          [[("a", 1)], [("b", 1), ("c", 1)]]) z)).Sorted byCountDesc ∧
        ((List.insertionSort byCountDesc (distAt (fromData 2 1 1 2 2 [1, 1] [1, 2]
          [[("a", 1)], [("b", 1), ("c", 1)]]) z)).take 5).length ≤ 5) ∧
      (∀ z, z < 2 → distAt (fromData 2 1 1 2 2 [1, 1] [1, 2]
          [[("a", 1)], [("b", 1), ("c", 1)]]) z = [] →
        dictLookup (getTopWords (fromData 2 1 1 2 2 [1, 1] [1, 2]
          [[("a", 1)], [("b", 1), ("c", 1)]]) 5 " ") z = some "") :=
  claim_C6_get_top_words (fromData 2 1 1 2 2 [1, 1] [1, 2]
    [[("a", 1)], [("b", 1), ("c", 1)]]) 5 " " (by norm_num [fromData])

theorem getD_int_nonneg (l : List ℤ) (h : ∀ x ∈ l, 0 ≤ x) (z : ℕ) : 0 ≤ l.getD z 0 := by
  by_cases hz : z < l.length
  · exact h _ (getD_mem_of_lt l z 0 hz)
  · rw [List.getD_eq_default _ _ (Nat.le_of_not_lt hz)]

theorem distAt_pos_of_valid {m : Model} (hv : ValidStats m) (z : ℕ) :
    ∀ kv ∈ distAt m z, 1 ≤ kv.2 := by
  by_cases hz : z < m.cluster_word_distribution.length
  · exact hv.2.2 _ (getD_mem_of_lt _ z [] hz)
  · rw [distAt, List.getD_eq_default _ _ (Nat.le_of_not_lt hz)]
    simp

/-- C9 (amended): construction stores non-positive `alpha`/`beta` without
validation; on a well-formed state with `alpha = 0` (or `beta = 0`),
`score` passes a non-positive argument to `log`; conversely, when the
statistics are well-formed and `alpha > 0`, `beta > 0`, `number_docs ≥ 1`,
`K ≥ 1` AND `vocab_size ≥ 1`, every argument `score` passes to `log` is
strictly positive.  (The claim's original precondition, which omits
`K ≥ 1` and `vocab_size ≥ 1`, is refuted by
`claim_C9_log_domain_counterexample`.) -/
theorem claim_C9_log_domain :
    (∀ (K n : ℕ) (alpha beta : ℝ), (mkModel K alpha beta n).alpha = alpha ∧
      (mkModel K alpha beta n).beta = beta) ∧
    (mAlphaZero.alpha ≤ 0 ∧ ValidStats mAlphaZero ∧
      (0 : ℝ) ∈ scoreLogArgs mAlphaZero ["a"] ∧ ¬ (0 : ℝ) > 0) ∧
    (∀ (m : Model) (doc : List Token), ValidStats m → 0 < m.alpha → 0 < m.beta →
      1 ≤ m.number_docs → 1 ≤ m.K → 1 ≤ m.vocab_size →
      ∀ x ∈ scoreLogArgs m doc, 0 < x) := by
  refine ⟨fun K n alpha beta => ⟨rfl, rfl⟩, ⟨le_refl 0, ?_, ?_, by norm_num⟩, ?_⟩
  · refine ⟨?_, ?_, ?_⟩
    · intro x hx
      simp only [mAlphaZero, fromData, List.mem_singleton] at hx
      rw [hx]
    · intro x hx
      simp only [mAlphaZero, fromData, List.mem_singleton] at hx
      rw [hx]
    · intro d hd kv hkv
      simp only [mAlphaZero, fromData, List.mem_singleton] at hd
      rw [hd] at hkv
      simp at hkv
  · simp [scoreLogArgs, mAlphaZero, fromData, distAt, getCount, List.range_succ,
      List.range'_succ]
  · intro m doc hv hα hβ hD hK hV x hx
    have hK1 : (1 : ℝ) ≤ (m.K : ℝ) := by exact_mod_cast hK
    have hD1 : (1 : ℝ) ≤ (m.number_docs : ℝ) := by exact_mod_cast hD
    have hV1 : (1 : ℝ) ≤ (m.vocab_size : ℝ) := by exact_mod_cast hV
    simp only [scoreLogArgs, List.mem_cons, List.mem_flatMap, List.mem_append,
      List.mem_map] at hx
    rcases hx with hx | ⟨label, _, hx⟩
    · rw [hx]
      have hKα : m.alpha ≤ (m.K : ℝ) * m.alpha := le_mul_of_one_le_left (le_of_lt hα) hK1
      linarith
    · rcases hx with hx | hx
      · rw [hx]
        have h0 : (0 : ℝ) ≤ ((m.cluster_doc_count.getD label 0 : ℤ) : ℝ) := by
          exact_mod_cast getD_int_nonneg m.cluster_doc_count hv.1 label
        linarith
      · rcases hx with ⟨w, _, hx⟩ | ⟨j, hj, hx⟩
        · rw [← hx]
          have h0 : (0 : ℤ) ≤ getCount (distAt m label) w :=
            getCount_nonneg (distAt_pos_of_valid hv label) w
          have h0r : (0 : ℝ) ≤ ((getCount (distAt m label) w : ℤ) : ℝ) := by
            exact_mod_cast h0
          linarith
        · rw [← hx]
          have h0 : (0 : ℝ) ≤ ((m.cluster_word_count.getD label 0 : ℤ) : ℝ) := by
            exact_mod_cast getD_int_nonneg m.cluster_word_count hv.2.1 label
          have hVβ : m.beta ≤ (m.vocab_size : ℝ) * m.beta :=
            le_mul_of_one_le_left (le_of_lt hβ) hV1
          have hj1 : 1 ≤ j := by
            rw [List.mem_range'] at hj
            omega
          have hj1r : (1 : ℝ) ≤ (j : ℝ) := by exact_mod_cast hj1
          linarith

/-- Counterexample to C9 as stated: a well-formed state with
`alpha = beta = 1 > 0` and `number_docs = 1` but an empty vocabulary
(`vocab_size = 0`) and an empty cluster still makes `score` pass
`0 + 0*beta + 1 - 1 = 0` to `log` on a one-token document, so the stated
precondition does not exclude `log` of a non-positive argument. -/
theorem claim_C9_log_domain_counterexample :
    0 < mVocabZero.alpha ∧ 0 < mVocabZero.beta ∧ 1 ≤ mVocabZero.number_docs ∧
    ValidStats mVocabZero ∧ (0 : ℝ) ∈ scoreLogArgs mVocabZero ["a"] ∧
    ¬ (0 : ℝ) > 0 := by
  refine ⟨by norm_num [mVocabZero, fromData], by norm_num [mVocabZero, fromData],
    by norm_num [mVocabZero, fromData], ⟨?_, ?_, ?_⟩, ?_, by norm_num⟩
  · intro x hx
    simp only [mVocabZero, fromData, List.mem_singleton] at hx
    rw [hx]
  · intro x hx
    simp only [mVocabZero, fromData, List.mem_singleton] at hx
    rw [hx]
  · intro d hd kv hkv
    simp only [mVocabZero, fromData, List.mem_singleton] at hd
    rw [hd] at hkv
    simp at hkv
  · simp [scoreLogArgs, mVocabZero, fromData, distAt, getCount, List.range_succ,
      List.range'_succ]

/-- Witness for the amended C9 at a concrete well-formed model with
positive parameters and nonempty vocabulary. -/
theorem claim_C9_log_domain_witness :
    ∀ x ∈ scoreLogArgs (fromData 1 1 1 1 1 [0] [0] [[]]) ["a"], 0 < x := by
  refine claim_C9_log_domain.2.2 (fromData 1 1 1 1 1 [0] [0] [[]]) ["a"]
    ⟨?_, ?_, ?_⟩ (by norm_num [fromData]) (by norm_num [fromData])
    (by norm_num [fromData]) (by norm_num [fromData]) (by norm_num [fromData])
  · intro x hx
    simp only [fromData, List.mem_singleton] at hx
    rw [hx]
  · intro x hx
    simp only [fromData, List.mem_singleton] at hx
    rw [hx]
  · intro d hd kv hkv
    simp only [fromData, List.mem_singleton] at hd
    rw [hd] at hkv
    simp at hkv

end Gsdmm
